import Mathlib

set_option maxRecDepth 8192

/-!
Verification of the `mergedeep` deep-merge library (`mergedeep/mergedeep.py`).

The embedding models Python values as trees.  Mutable containers (`dict`,
`list`, `set`) carry a `Nat` object identity so that in-place mutation versus
fresh allocation (deep copy) is observable; `deepcopy` threads a counter of
fresh identities.  `merge` follows the source line by line: it folds
`_deepmerge` over the sources, dispatching conflicts through the
`_handle_merge` table.  Raising is modelled with `Except`; a ghost event trace
records handler dispatches, type checks and recursive descents so that claims
about "the handler is invoked" are statable.  The trace and the identity
counter are invisible to the Python code and do not influence the computed
entries.
-/

namespace Mergedeep

/-- A Python value as manipulated by mergedeep: scalars (`int`, `bool`, `str`),
dicts (`vmap`, with a flag telling whether the object is an instance of a
plain-`dict` subclass — a distinct concrete type that is still a `Mapping` and
inherits `dict` equality), lists, sets and tuples.  Mutable containers carry a
`Nat` object identity; tuples are immutable and carry none. -/
inductive Value where
  | vint  : Int → Value
  | vbool : Bool → Value
  | vstr  : String → Value
  | vmap  : Bool → Nat → List (String × Value) → Value
  | vlist : Nat → List Value → Value
  | vset  : Nat → List Value → Value
  | vtup  : List Value → Value
  deriving Repr

/-- The content of a Python dict: an ordered association list.  Real dicts
have unique keys; well-formedness (`validE`) records that. -/
abbrev Entries := List (String × Value)

/-- Python `src[key]` on a dict: the binding of `key` (dicts keep one binding
per key; we return the first). -/
def lookupVal (k : String) : Entries → Option Value
  | [] => none
  | (k2, v) :: es => if k = k2 then some v else lookupVal k es

/-- Python `dst[key] = v` on a dict: overwrite the existing binding in place
(keeping its position) or append a new binding at the end. -/
def setVal (k : String) (v : Value) : Entries → Entries
  | [] => [(k, v)]
  | (k2, v2) :: es => if k = k2 then (k, v) :: es else (k2, v2) :: setVal k v es

/-- The keys of a dict, in insertion order (`for key in src`). -/
def keysList : Entries → List String
  | [] => []
  | (k, _) :: es => k :: keysList es

/-- Destructure a `Mapping` value (`isinstance(v, Mapping)` plus access to its
content): the subclass flag, the object identity and the entries. -/
def mapData : Value → Option (Bool × Nat × Entries)
  | .vmap f i es => some (f, i, es)
  | _ => none

/-- `isinstance(v, Mapping)`. -/
def isMapping (v : Value) : Bool := (mapData v).isSome

/-- The concrete runtime type of a value, as compared by
`type(x) is type(y)`.  A `dict` subclass instance is a distinct concrete
type, hence the flag. -/
inductive PyType where
  | tInt | tBool | tStr
  | tDict (sub : Bool)
  | tList | tSet | tTuple
  deriving Repr, DecidableEq

/-- `type(v)` of a value. -/
def typeOf : Value → PyType
  | .vint _ => .tInt
  | .vbool _ => .tBool
  | .vstr _ => .tStr
  | .vmap f _ _ => .tDict f
  | .vlist _ _ => .tList
  | .vset _ _ => .tSet
  | .vtup _ => .tTuple

/-- Printable name of a concrete type (used in the TypeError message). -/
def typeName : PyType → String
  | .tInt => "int"
  | .tBool => "bool"
  | .tStr => "str"
  | .tDict false => "dict"
  | .tDict true => "dict subclass"
  | .tList => "list"
  | .tSet => "set"
  | .tTuple => "tuple"

/-- The elements of a list, set or tuple value (used to model `.extend`,
`.update` and tuple concatenation after a `deepcopy` of the source value). -/
def elemsOf : Value → List Value
  | .vlist _ xs => xs
  | .vset _ xs => xs
  | .vtup xs => xs
  | _ => []

mutual

/-- Python `copy.deepcopy`: recursively construct new, independently owned
containers (fresh object identities, allocated from the threaded counter)
around copies of the contents.  Immutable scalars and the tuple shell itself
need no fresh identity. -/
def deepcopy : Value → Nat → Value × Nat
  | .vint n, c => (.vint n, c)
  | .vbool b, c => (.vbool b, c)
  | .vstr s, c => (.vstr s, c)
  | .vmap f _ es, c =>
      let r := deepcopyE es (c + 1)
      (.vmap f c r.1, r.2)
  | .vlist _ xs, c =>
      let r := deepcopyL xs (c + 1)
      (.vlist c r.1, r.2)
  | .vset _ xs, c =>
      let r := deepcopyL xs (c + 1)
      (.vset c r.1, r.2)
  | .vtup xs, c =>
      let r := deepcopyL xs c
      (.vtup r.1, r.2)

/-- Deep copy of the element list of a list/set/tuple. -/
def deepcopyL : List Value → Nat → List Value × Nat
  | [], c => ([], c)
  | x :: xs, c =>
      let r := deepcopy x c
      let r2 := deepcopyL xs r.2
      (r.1 :: r2.1, r2.2)

/-- Deep copy of the entries of a dict (keys are immutable strings). -/
def deepcopyE : Entries → Nat → Entries × Nat
  | [], c => ([], c)
  | (k, v) :: es, c =>
      let r := deepcopy v c
      let r2 := deepcopyE es r.2
      ((k, r.1) :: r2.1, r2.2)

end

theorem lookupVal_sizeOf {k : String} :
    ∀ {es : Entries} {v : Value}, lookupVal k es = some v → sizeOf v < sizeOf es := by
  intro es
  induction es with
  | nil => intro v h; simp [lookupVal] at h
  | cons p es ih =>
      intro v h
      obtain ⟨k2, v2⟩ := p
      simp only [lookupVal] at h
      by_cases hk : k = k2
      · simp [hk] at h
        subst h
        simp only [List.cons.sizeOf_spec, Prod.mk.sizeOf_spec]
        omega
      · simp [hk] at h
        have := ih h
        simp only [List.cons.sizeOf_spec, Prod.mk.sizeOf_spec]
        omega

theorem mapData_sizeOf {v : Value} {f : Bool} {i : Nat} {es : Entries}
    (h : mapData v = some (f, i, es)) : sizeOf es < sizeOf v := by
  cases v <;> simp [mapData] at h
  obtain ⟨_, _, h⟩ := h
  subst h
  simp only [Value.vmap.sizeOf_spec]
  omega

mutual

/-- Python `==` between two values.  `bool` is a subtype of `int` in Python,
so `True == 1`; dicts compare as mappings (same size, and every entry of the
left dict is bound in the right one to an equal value); lists and tuples
compare pointwise; sets compare by mutual inclusion of elements.  Values of
otherwise different kinds compare unequal. -/
def valEq : Value → Value → Bool
  | .vint a, .vint b => a == b
  | .vint a, .vbool b => a == (if b then 1 else 0)
  | .vbool a, .vint b => (if a then (1 : Int) else 0) == b
  | .vbool a, .vbool b => a == b
  | .vstr a, .vstr b => a == b
  | .vmap _ _ e1, .vmap _ _ e2 => (e1.length == e2.length) && entriesSub e1 e2
  | .vlist _ xs, .vlist _ ys => listEq xs ys
  | .vset _ xs, .vset _ ys => subsetBy xs ys && subsetBy ys xs
  | .vtup xs, .vtup ys => listEq xs ys
  | _, _ => false
  termination_by a b => sizeOf a + sizeOf b

/-- Pointwise equality of two element lists (Python list/tuple `==`). -/
def listEq : List Value → List Value → Bool
  | [], [] => true
  | x :: xs, y :: ys => valEq x y && listEq xs ys
  | _, _ => false
  termination_by xs ys => sizeOf xs + sizeOf ys

/-- Python `x in ys` membership by `==` (as used by set operations). -/
def memBy : Value → List Value → Bool
  | _, [] => false
  | x, y :: ys => valEq x y || memBy x ys
  termination_by x ys => sizeOf x + sizeOf ys

/-- Every element of the first list is `==` to some element of the second. -/
def subsetBy : List Value → List Value → Bool
  | [], _ => true
  | x :: xs, ys => memBy x ys && subsetBy xs ys
  termination_by xs ys => sizeOf xs + sizeOf ys

/-- Every entry of the first dict is bound in the second dict to an
`==`-equal value. -/
def entriesSub : Entries → Entries → Bool
  | [], _ => true
  | (k, v) :: es, es2 =>
      (match h : lookupVal k es2 with
       | some w => valEq v w
       | none => false) && entriesSub es es2
  termination_by es es2 => sizeOf es + sizeOf es2
  decreasing_by
  · have := lookupVal_sizeOf h
    simp only [List.cons.sizeOf_spec, Prod.mk.sizeOf_spec] at *
    omega
  · simp only [List.cons.sizeOf_spec, Prod.mk.sizeOf_spec]
    omega

end

mutual

/-- All object identities of the mutable containers reachable inside a value.
Two Python structures share (alias) a mutable node exactly when they share an
identity. -/
def idsV : Value → List Nat
  | .vint _ => []
  | .vbool _ => []
  | .vstr _ => []
  | .vmap _ i es => i :: idsE es
  | .vlist i xs => i :: idsL xs
  | .vset i xs => i :: idsL xs
  | .vtup xs => idsL xs

/-- Identities reachable from a list of values. -/
def idsL : List Value → List Nat
  | [] => []
  | x :: xs => idsV x ++ idsL xs

/-- Identities reachable from dict entries. -/
def idsE : Entries → List Nat
  | [] => []
  | (_, v) :: es => idsV v ++ idsE es

end

/-- No string occurs twice (the key uniqueness every real Python dict has). -/
def nodupKeys : List String → Bool
  | [] => true
  | k :: ks => (!(ks.contains k)) && nodupKeys ks

mutual

/-- A value is a possible Python runtime value: every dict reachable inside
it has unique keys. -/
def validV : Value → Bool
  | .vint _ => true
  | .vbool _ => true
  | .vstr _ => true
  | .vmap _ _ es => nodupKeys (keysList es) && validE es
  | .vlist _ xs => validL xs
  | .vset _ xs => validL xs
  | .vtup xs => validL xs

/-- Validity of a list of values. -/
def validL : List Value → Bool
  | [] => true
  | x :: xs => validV x && validL xs

/-- Validity of the content of a dict (the keys at this level being unique is
checked by the caller via `nodupKeys`). -/
def validE : Entries → Bool
  | [] => true
  | (_, v) :: es => validV v && validE es

end

/-- The content of a dict is a possible Python dict: unique keys and valid
values. -/
def validDict (es : Entries) : Bool :=
  nodupKeys (keysList es) && validE es

/-- The five registered members of the `Strategy` enum. -/
inductive Strategy where
  | REPLACE | ADDITIVE | TYPESAFE | TYPESAFE_REPLACE | TYPESAFE_ADDITIVE
  deriving Repr, DecidableEq

/-- The `strategy` argument actually passed to `merge`.  Python is untyped:
the caller may pass one of the five registered `Strategy` members, or any
other value (`invalid`), which is not a key of the `_handle_merge` dict. -/
inductive StrategyArg where
  | member : Strategy → StrategyArg
  | invalid : StrategyArg
  deriving Repr, DecidableEq

/-- The errors a merge call can raise.  `typeMismatch` is the `TypeError`
raised by `_handle_merge_typesafe`, carrying the offending key and both
concrete types.  `notCallable` is the `TypeError` Python raises when the
non-callable enum member `Strategy.REPLACE` — the fallback of
`_handle_merge.get(strategy, Strategy.REPLACE)` — is called.  `keyError`
models a dict access to a missing key; the merge code never actually
performs one. -/
inductive MergeError where
  | typeMismatch (key : String) (dstType srcType : PyType)
  | notCallable
  | keyError (key : String)
  deriving Repr, DecidableEq

/-- The message of the `TypeError` raised by `_handle_merge_typesafe`
(the f-string of the source, with `typeName` printing the types). -/
def errorMessage : MergeError → String
  | .typeMismatch k t1 t2 =>
      "destination type: " ++ typeName t1 ++ " differs from source type: " ++
        typeName t2 ++ " for key: " ++ k
  | .notCallable => "Strategy object is not callable"
  | .keyError k => k

/-- Ghost trace events: `handler k` marks the conflict on key `k` being
dispatched to the strategy callee, `typeCheck k` marks the concrete-type
comparison of `_handle_merge_typesafe` being executed on key `k`, and
`recurse k` marks `_deepmerge` recursing into the two mappings at key `k`. -/
inductive Event where
  | handler (k : String)
  | typeCheck (k : String)
  | recurse (k : String)
  deriving Repr, DecidableEq

/-- Result of a merge step: either the raised error or the mutated
destination entries with the next fresh identity, paired with the ghost
event trace. -/
abbrev StepResult := Except MergeError (Entries × Nat) × List Event

/-- A conflict handler, as stored in the `_handle_merge` dict: it receives
the destination dict, the source dict and the conflicting key (plus the
threaded fresh-identity counter). -/
abbrev Handler := Entries → Entries → String → Nat → StepResult

/-- Python `set.update`: add, in iteration order, each element of the
argument that is not already `==` to an element of the set. -/
def setUpdate : List Value → List Value → List Value
  | dxs, [] => dxs
  | dxs, e :: es => setUpdate (if memBy e dxs then dxs else dxs ++ [e]) es

/-- `_handle_merge_replace`: `destination[key] = deepcopy(source[key])`. -/
def _handle_merge_replace : Handler := fun destination source key c =>
  match lookupVal key source with
  | none => (.error (.keyError key), [])
  | some sv =>
      let r := deepcopy sv c
      (.ok (setVal key r.1 destination, r.2), [])

/-- `_handle_merge_additive`: if both values are lists, extend the
destination list in place with a deep copy of the source list; if both are
sets, update the destination set in place with a deep copy of the source
set; if both are tuples, rebind the key to the concatenation of the
destination tuple and a deep copy of the source tuple; otherwise fall back
to the REPLACE handler (`_handle_merge[Strategy.REPLACE]`). -/
def _handle_merge_additive : Handler := fun destination source key c =>
  match lookupVal key destination, lookupVal key source with
  | some dv, some sv =>
      match dv, sv with
      | .vlist di dxs, .vlist si sxs =>
          let r := deepcopy (.vlist si sxs) c
          (.ok (setVal key (.vlist di (dxs ++ elemsOf r.1)) destination, r.2), [])
      | .vset di dxs, .vset si sxs =>
          let r := deepcopy (.vset si sxs) c
          (.ok (setVal key (.vset di (setUpdate dxs (elemsOf r.1))) destination, r.2), [])
      | .vtup dxs, .vtup sxs =>
          let r := deepcopy (.vtup sxs) c
          (.ok (setVal key (.vtup (dxs ++ elemsOf r.1)) destination, r.2), [])
      | _, _ => _handle_merge_replace destination source key c
  | _, _ => (.error (.keyError key), [])

/-- `_handle_merge_typesafe`: raise a `TypeError` naming both concrete types
and the key when `type(destination[key]) is not type(source[key])`;
otherwise run the inner handler (`_handle_merge[strategy]`, which the two
`partial` entries of the dispatch table fix to the REPLACE respectively
ADDITIVE handler). -/
def _handle_merge_typesafe (inner : Handler) : Handler := fun destination source key c =>
  match lookupVal key destination, lookupVal key source with
  | some dv, some sv =>
      if typeOf dv ≠ typeOf sv then
        (.error (.typeMismatch key (typeOf dv) (typeOf sv)), [.typeCheck key])
      else
        let r := inner destination source key c
        (r.1, .typeCheck key :: r.2)
  | _, _ => (.error (.keyError key), [])

/-- The `_handle_merge` dispatch dict, keyed by the five registered
strategies. -/
def _handle_merge : Strategy → Handler
  | .REPLACE => _handle_merge_replace
  | .ADDITIVE => _handle_merge_additive
  | .TYPESAFE => _handle_merge_typesafe _handle_merge_replace
  | .TYPESAFE_REPLACE => _handle_merge_typesafe _handle_merge_replace
  | .TYPESAFE_ADDITIVE => _handle_merge_typesafe _handle_merge_additive

/-- What `_handle_merge.get(strategy, Strategy.REPLACE)` evaluates to: the
registered handler for a registered strategy, and otherwise the default —
which is the enum member `Strategy.REPLACE` itself, a non-callable object,
not a handler. -/
inductive Callee where
  | callable : Handler → Callee
  | enumMember : Strategy → Callee

/-- `_handle_merge.get(strategy, Strategy.REPLACE)`. -/
def _handle_merge_get : StrategyArg → Callee
  | .member s => .callable (_handle_merge s)
  | .invalid => .enumMember .REPLACE

mutual

/-- The inner `_deepmerge(dst, src)` of `merge`: iterate over the keys of
`src` (the `strategy`, hence the callee `hc` obtained from
`_handle_merge.get`, is fixed for the whole invocation). -/
def _deepmerge (hc : Callee) (dst src : Entries) (c : Nat) : StepResult :=
  mergeLoop hc dst src (keysList src) c
  termination_by ((sizeOf src : Nat), (keysList src).length + 1)
  decreasing_by
  · exact Prod.Lex.right _ (by omega)

/-- The `for key in src` loop of `_deepmerge`: process each key in order,
threading the mutated destination; a raise unwinds the whole loop. -/
def mergeLoop (hc : Callee) (dst src : Entries) (ks : List String) (c : Nat) : StepResult :=
  match ks with
  | [] => (.ok (dst, c), [])
  | k :: rest =>
      match mergeEntry hc dst src k c with
      | (.ok (dst2, c2), t) =>
          let r := mergeLoop hc dst2 src rest c2
          (r.1, t ++ r.2)
      | (.error e, t) => (.error e, t)
  termination_by ((sizeOf src : Nat), ks.length)
  decreasing_by
  · exact Prod.Lex.right _ (by simp only [List.length_cons]; omega)
  · exact Prod.Lex.right _ (by simp only [List.length_cons]; omega)

/-- The body of the loop, for one key of `src`: if the key is missing from
`dst`, insert a deep copy of `src[key]`; else if both values are Mappings,
recurse into them (the recursion mutates the destination mapping in place,
so its identity and concrete type are kept); else if the values compare
`==`, keep the destination value; else dispatch the conflict to
`_handle_merge.get(strategy, Strategy.REPLACE)` — raising the Python
`TypeError` for a non-callable object when the fallback enum member is
"called". -/
def mergeEntry (hc : Callee) (dst src : Entries) (k : String) (c : Nat) : StepResult :=
  match hsv : lookupVal k src with
  | none => (.error (.keyError k), [])
  | some sv =>
      match lookupVal k dst with
      | none =>
          let r := deepcopy sv c
          (.ok (setVal k r.1 dst, r.2), [])
      | some dv =>
          match hd : mapData dv, hs : mapData sv with
          | some (df, di, des), some (_, _, ses) =>
              match _deepmerge hc des ses c with
              | (.ok (des2, c2), t) => (.ok (setVal k (.vmap df di des2) dst, c2), .recurse k :: t)
              | (.error e, t) => (.error e, .recurse k :: t)
          | _, _ =>
              if valEq dv sv then (.ok (dst, c), [])
              else
                match hc with
                | .callable h =>
                    let r := h dst src k c
                    (r.1, .handler k :: r.2)
                | .enumMember _ => (.error .notCallable, [.handler k])
  termination_by ((sizeOf src : Nat), 0)
  decreasing_by
  · exact Prod.Lex.left _ _
      (by
        have h1 := lookupVal_sizeOf hsv
        have h2 := mapData_sizeOf hs
        omega)

end

/-- The `reduce(_deepmerge, sources, destination)` fold of `merge`: sources
merge into the destination left to right; the first raise unwinds. -/
def mergeSources (hc : Callee) (dst : Entries) (srcs : List Entries) (c : Nat) : StepResult :=
  match srcs with
  | [] => (.ok (dst, c), [])
  | s :: rest =>
      match _deepmerge hc dst s c with
      | (.ok (d2, c2), t) =>
          let r := mergeSources hc d2 rest c2
          (r.1, t ++ r.2)
      | (.error e, t) => (.error e, t)

/-- `merge(destination, *sources, strategy=...)` with its ghost trace: look
the strategy up once (it is fixed for the invocation) and fold the sources
into the destination. -/
def mergeTraced (dst : Entries) (srcs : List Entries) (strategy : StrategyArg) (c : Nat) :
    StepResult :=
  mergeSources (_handle_merge_get strategy) dst srcs c

/-- `merge(destination, *sources, strategy=...)`: the raised error, or the
final state of the destination dict (which the call also returns) together
with the next fresh identity. -/
def merge (dst : Entries) (srcs : List Entries) (strategy : StrategyArg) (c : Nat) :
    Except MergeError (Entries × Nat) :=
  (mergeTraced dst srcs strategy c).1

/-! Specification-side auxiliary definitions (not part of the source model;
used to state the claims). -/

/-- Pointwise structural correspondence between two dict contents: same keys
in the same order, values `==`-equal (what `deepcopyE` produces). -/
def entriesPointwise : Entries → Entries → Bool
  | [], [] => true
  | (k1, v1) :: es1, (k2, v2) :: es2 =>
      (k1 == k2) && valEq v1 v2 && entriesPointwise es1 es2
  | _, _ => false

/-- All container identities of a list of source dicts. -/
def idsSrcs : List Entries → List Nat
  | [] => []
  | s :: rest => idsE s ++ idsSrcs rest

/-- True when the event is not a handler dispatch. -/
def eventNotHandler : Event → Bool
  | .handler _ => false
  | _ => true

/-- True when the event is a recursive descent marker. -/
def eventIsRecurse : Event → Bool
  | .recurse _ => true
  | _ => false

/-- True exactly for the `TypeError` of `_handle_merge_typesafe`. -/
def isTypeMismatch : MergeError → Bool
  | .typeMismatch _ _ _ => true
  | _ => false

/-- Python `==` on two dict contents (the mapping case of `valEq`). -/
def dictEq (es1 es2 : Entries) : Bool :=
  (es1.length == es2.length) && entriesSub es1 es2

/-- What every conflict handler of the dispatch table guarantees: on success
it mutates only the conflicting key, advances the identity counter, and every
identity of the mutated destination either was already in the destination or
is freshly allocated; on failure (called with the key bound on both sides, as
the merge always does) the raised error satisfies `errOk`. -/
def HandlerSpec (h : Handler) (errOk : MergeError → Prop) : Prop :=
  ∀ dst src k c,
    (∀ d2 c2 t, h dst src k c = (.ok (d2, c2), t) →
      (∀ k2, k2 ≠ k → lookupVal k2 d2 = lookupVal k2 dst) ∧
      c ≤ c2 ∧ (∀ i ∈ idsE d2, i ∈ idsE dst ∨ (c ≤ i ∧ i < c2))) ∧
    (∀ e t, lookupVal k dst ≠ none → lookupVal k src ≠ none →
      h dst src k c = (.error e, t) → errOk e)

/-! Basic dictionary lemmas. -/

theorem lookupVal_mem {k : String} :
    ∀ {es : Entries} {v : Value}, lookupVal k es = some v → (k, v) ∈ es := by
  intro es
  induction es with
  | nil => intro v h; simp [lookupVal] at h
  | cons p es ih =>
      intro v h
      obtain ⟨k2, v2⟩ := p
      simp only [lookupVal] at h
      by_cases hk : k = k2
      · simp [hk] at h
        simp [hk, h]
      · simp [hk] at h
        exact List.mem_cons_of_mem _ (ih h)

theorem mem_keysList {k : String} :
    ∀ {es : Entries}, k ∈ keysList es ↔ ∃ v, (k, v) ∈ es := by
  intro es
  induction es with
  | nil => simp [keysList]
  | cons p es ih =>
      obtain ⟨k2, v2⟩ := p
      simp only [keysList, List.mem_cons, ih, Prod.mk.injEq]
      constructor
      · rintro (rfl | ⟨v, hv⟩)
        · exact ⟨v2, Or.inl ⟨rfl, rfl⟩⟩
        · exact ⟨v, Or.inr hv⟩
      · rintro ⟨v, ⟨rfl, rfl⟩ | hv⟩
        · exact Or.inl rfl
        · exact Or.inr ⟨v, hv⟩

theorem lookup_isSome_of_mem_keys {k : String} :
    ∀ {es : Entries}, k ∈ keysList es → ∃ v, lookupVal k es = some v := by
  intro es
  induction es with
  | nil => simp [keysList]
  | cons p es ih =>
      obtain ⟨k2, v2⟩ := p
      intro h
      by_cases hk : k = k2
      · exact ⟨v2, by simp [lookupVal, hk]⟩
      · simp only [keysList, List.mem_cons] at h
        rcases h with h | h
        · exact absurd h hk
        · obtain ⟨v, hv⟩ := ih h
          exact ⟨v, by simp [lookupVal, hk, hv]⟩

theorem lookup_none_of_not_mem_keys {k : String} :
    ∀ {es : Entries}, k ∉ keysList es → lookupVal k es = none := by
  intro es
  induction es with
  | nil => intro; rfl
  | cons p es ih =>
      obtain ⟨k2, v2⟩ := p
      intro h
      simp only [keysList, List.mem_cons] at h
      push_neg at h
      simp [lookupVal, h.1, ih h.2]

theorem lookup_setVal_self {k : String} {v : Value} :
    ∀ {es : Entries}, lookupVal k (setVal k v es) = some v := by
  intro es
  induction es with
  | nil => simp [setVal, lookupVal]
  | cons p es ih =>
      obtain ⟨k2, v2⟩ := p
      by_cases hk : k = k2
      · simp [setVal, lookupVal, hk]
      · simp [setVal, lookupVal, hk, ih]

theorem lookup_setVal_ne {k k2 : String} {v : Value} (hk : k ≠ k2) :
    ∀ {es : Entries}, lookupVal k (setVal k2 v es) = lookupVal k es := by
  intro es
  induction es with
  | nil => simp [setVal, lookupVal, hk]
  | cons p es ih =>
      obtain ⟨k3, v3⟩ := p
      by_cases hk2 : k2 = k3
      · subst hk2
        simp [setVal, lookupVal, hk]
      · by_cases hk3 : k = k3
        · simp [setVal, lookupVal, hk2, hk3]
        · simp [setVal, lookupVal, hk2, hk3, ih]

theorem setVal_lookup_self {k : String} {v : Value} :
    ∀ {es : Entries}, lookupVal k es = some v → setVal k v es = es := by
  intro es
  induction es with
  | nil => intro h; simp [lookupVal] at h
  | cons p es ih =>
      obtain ⟨k2, v2⟩ := p
      intro h
      simp only [lookupVal] at h
      by_cases hk : k = k2
      · simp [hk] at h
        simp [setVal, hk, h]
      · simp [hk] at h
        simp [setVal, hk, ih h]

theorem keysList_length : ∀ {es : Entries}, (keysList es).length = es.length := by
  intro es
  induction es with
  | nil => rfl
  | cons p es ih => obtain ⟨k, v⟩ := p; simp [keysList, ih]

theorem nodupKeys_iff : ∀ {ks : List String}, nodupKeys ks = true ↔ ks.Nodup := by
  intro ks
  induction ks with
  | nil => simp [nodupKeys]
  | cons k ks ih =>
      simp [nodupKeys, ih, List.nodup_cons]

theorem validE_lookup {k : String} :
    ∀ {es : Entries} {v : Value}, validE es = true → lookupVal k es = some v →
      validV v = true := by
  intro es
  induction es with
  | nil => intro v _ h; simp [lookupVal] at h
  | cons p es ih =>
      obtain ⟨k2, v2⟩ := p
      intro v hval h
      simp only [validE, Bool.and_eq_true] at hval
      simp only [lookupVal] at h
      by_cases hk : k = k2
      · simp [hk] at h
        exact h ▸ hval.1
      · simp [hk] at h
        exact ih hval.2 h

theorem lookup_of_mem_nodup {k : String} {v : Value} :
    ∀ {es : Entries}, nodupKeys (keysList es) = true → (k, v) ∈ es →
      lookupVal k es = some v := by
  intro es
  induction es with
  | nil => intro _ h; simp at h
  | cons p es ih =>
      obtain ⟨k2, v2⟩ := p
      intro hnd h
      simp only [keysList, nodupKeys, Bool.and_eq_true] at hnd
      rcases List.mem_cons.mp h with heq | hmem
      · injection heq with h1 h2
        simp [lookupVal, h1, h2]
      · have hk2 : k2 ∉ keysList es := by
          have hc := hnd.1
          simp only [Bool.not_eq_true'] at hc
          simp at hc
          exact hc
        have hk : k ≠ k2 := fun hkk =>
          hk2 (hkk ▸ mem_keysList.mpr ⟨v, hmem⟩)
        simp [lookupVal, hk, ih hnd.2 hmem]

/-! Deep copy: the counter is monotone, every identity in the copy is fresh
(allocated from the interval the call consumed), and the copy compares `==`
to the original (for Python-valid inputs). -/

theorem deepcopy_spec_all :
    (∀ (v : Value) (c : Nat), c ≤ (deepcopy v c).2 ∧
      ∀ i ∈ idsV (deepcopy v c).1, c ≤ i ∧ i < (deepcopy v c).2) ∧
    (∀ (xs : List Value) (c : Nat), c ≤ (deepcopyL xs c).2 ∧
      ∀ i ∈ idsL (deepcopyL xs c).1, c ≤ i ∧ i < (deepcopyL xs c).2) ∧
    (∀ (es : Entries) (c : Nat), c ≤ (deepcopyE es c).2 ∧
      ∀ i ∈ idsE (deepcopyE es c).1, c ≤ i ∧ i < (deepcopyE es c).2) := by
  refine deepcopy.mutual_induct
    (fun v c => c ≤ (deepcopy v c).2 ∧
      ∀ i ∈ idsV (deepcopy v c).1, c ≤ i ∧ i < (deepcopy v c).2)
    (fun xs c => c ≤ (deepcopyL xs c).2 ∧
      ∀ i ∈ idsL (deepcopyL xs c).1, c ≤ i ∧ i < (deepcopyL xs c).2)
    (fun es c => c ≤ (deepcopyE es c).2 ∧
      ∀ i ∈ idsE (deepcopyE es c).1, c ≤ i ∧ i < (deepcopyE es c).2)
    ?_ ?_ ?_ ?_ ?_ ?_ ?_ ?_ ?_ ?_ ?_
  · intro n c; simp [deepcopy, idsV]
  · intro b c; simp [deepcopy, idsV]
  · intro s c; simp [deepcopy, idsV]
  · intro f a es c ih
    obtain ⟨ih1, ih2⟩ := ih
    constructor
    · simp only [deepcopy]; omega
    · intro i hi
      simp only [deepcopy, idsV, List.mem_cons] at hi
      rcases hi with rfl | hi
      · simp only [deepcopy]; omega
      · have := ih2 i hi
        simp only [deepcopy]; omega
  · intro a xs c ih
    obtain ⟨ih1, ih2⟩ := ih
    constructor
    · simp only [deepcopy]; omega
    · intro i hi
      simp only [deepcopy, idsV, List.mem_cons] at hi
      rcases hi with rfl | hi
      · simp only [deepcopy]; omega
      · have := ih2 i hi
        simp only [deepcopy]; omega
  · intro a xs c ih
    obtain ⟨ih1, ih2⟩ := ih
    constructor
    · simp only [deepcopy]; omega
    · intro i hi
      simp only [deepcopy, idsV, List.mem_cons] at hi
      rcases hi with rfl | hi
      · simp only [deepcopy]; omega
      · have := ih2 i hi
        simp only [deepcopy]; omega
  · intro xs c ih
    obtain ⟨ih1, ih2⟩ := ih
    constructor
    · simp only [deepcopy]; omega
    · intro i hi
      simp only [deepcopy, idsV] at hi
      have := ih2 i hi
      simp only [deepcopy]; omega
  · intro c; simp [deepcopyE, idsE]
  · intro k v es c r ih1 ih2
    have hr : r = deepcopy v c := rfl
    obtain ⟨h1, h2⟩ := ih1
    obtain ⟨h3, h4⟩ := ih2
    rw [hr] at h3 h4
    constructor
    · simp only [deepcopyE]; omega
    · intro i hi
      simp only [deepcopyE, idsE, List.mem_append] at hi
      rcases hi with hi | hi
      · have := h2 i hi
        simp only [deepcopyE]; omega
      · have := h4 i hi
        simp only [deepcopyE]; omega
  · intro c; simp [deepcopyL, idsL]
  · intro x xs c r ih1 ih2
    have hr : r = deepcopy x c := rfl
    obtain ⟨h1, h2⟩ := ih1
    obtain ⟨h3, h4⟩ := ih2
    rw [hr] at h3 h4
    constructor
    · simp only [deepcopyL]; omega
    · intro i hi
      simp only [deepcopyL, idsL, List.mem_append] at hi
      rcases hi with hi | hi
      · have := h2 i hi
        simp only [deepcopyL]; omega
      · have := h4 i hi
        simp only [deepcopyL]; omega

theorem deepcopy_counter_le (v : Value) (c : Nat) : c ≤ (deepcopy v c).2 :=
  (deepcopy_spec_all.1 v c).1

theorem deepcopy_ids_fresh (v : Value) (c : Nat) :
    ∀ i ∈ idsV (deepcopy v c).1, c ≤ i ∧ i < (deepcopy v c).2 :=
  (deepcopy_spec_all.1 v c).2

theorem entriesPointwise_length :
    ∀ {es1 es2 : Entries}, entriesPointwise es1 es2 = true → es1.length = es2.length := by
  intro es1
  induction es1 with
  | nil => intro es2 h; cases es2 with
      | nil => rfl
      | cons p es2 => simp [entriesPointwise] at h
  | cons p es1 ih =>
      intro es2 h
      obtain ⟨k1, v1⟩ := p
      cases es2 with
      | nil => simp [entriesPointwise] at h
      | cons q es2 =>
          obtain ⟨k2, v2⟩ := q
          simp only [entriesPointwise, Bool.and_eq_true] at h
          simp [ih h.2]

theorem entriesPointwise_keys :
    ∀ {es1 es2 : Entries}, entriesPointwise es1 es2 = true →
      keysList es1 = keysList es2 := by
  intro es1
  induction es1 with
  | nil => intro es2 h; cases es2 with
      | nil => rfl
      | cons p es2 => simp [entriesPointwise] at h
  | cons p es1 ih =>
      intro es2 h
      obtain ⟨k1, v1⟩ := p
      cases es2 with
      | nil => simp [entriesPointwise] at h
      | cons q es2 =>
          obtain ⟨k2, v2⟩ := q
          simp only [entriesPointwise, Bool.and_eq_true] at h
          have hk : k1 = k2 := by
            have := h.1.1
            simpa using this
          simp [keysList, hk, ih h.2]

theorem entriesPointwise_mem :
    ∀ {es1 es2 : Entries}, entriesPointwise es1 es2 = true →
      ∀ p ∈ es1, ∃ q ∈ es2, p.1 = q.1 ∧ valEq p.2 q.2 = true := by
  intro es1
  induction es1 with
  | nil => intro es2 _ p hp; simp at hp
  | cons r es1 ih =>
      intro es2 h p hp
      obtain ⟨k1, v1⟩ := r
      cases es2 with
      | nil => simp [entriesPointwise] at h
      | cons q es2 =>
          obtain ⟨k2, v2⟩ := q
          simp only [entriesPointwise, Bool.and_eq_true] at h
          rcases List.mem_cons.mp hp with rfl | hp
          · refine ⟨(k2, v2), List.mem_cons_self _ _, ?_, h.1.2⟩
            simpa using h.1.1
          · obtain ⟨q, hq, hq2⟩ := ih h.2 p hp
            exact ⟨q, List.mem_cons_of_mem _ hq, hq2⟩

theorem entriesSub_of_forall :
    ∀ {es1 es2 : Entries},
      (∀ p ∈ es1, ∃ w, lookupVal p.1 es2 = some w ∧ valEq p.2 w = true) →
      entriesSub es1 es2 = true := by
  intro es1
  induction es1 with
  | nil => intro es2 _; simp [entriesSub]
  | cons p es1 ih =>
      intro es2 h
      obtain ⟨k, v⟩ := p
      obtain ⟨w, hw, hvw⟩ := h (k, v) (List.mem_cons_self _ _)
      rw [entriesSub]
      simp only [Bool.and_eq_true]
      constructor
      · split
        · next w2 hw2 =>
            rw [hw] at hw2
            injection hw2 with e
            rw [← e]
            exact hvw
        · next hw2 =>
            rw [hw2] at hw
            cases hw
      · exact ih fun q hq => h q (List.mem_cons_of_mem _ hq)

theorem entriesPointwise_entriesSub {es1 es2 : Entries}
    (h : entriesPointwise es1 es2 = true)
    (hnd : nodupKeys (keysList es2) = true) : entriesSub es1 es2 = true := by
  refine entriesSub_of_forall fun p hp => ?_
  obtain ⟨q, hq, hk, hv⟩ := entriesPointwise_mem h p hp
  refine ⟨q.2, ?_, hv⟩
  rw [hk]
  exact lookup_of_mem_nodup hnd (by cases q; exact hq)

theorem memBy_widen {x y : Value} :
    ∀ {ys : List Value}, memBy x ys = true → memBy x (y :: ys) = true := by
  intro ys h
  rw [memBy]
  simp [h]

theorem subsetBy_widen {y : Value} :
    ∀ {xs ys : List Value}, subsetBy xs ys = true → subsetBy xs (y :: ys) = true := by
  intro xs
  induction xs with
  | nil => intro ys _; rw [subsetBy]
  | cons x xs ih =>
      intro ys h
      rw [subsetBy] at h ⊢
      simp only [Bool.and_eq_true] at h ⊢
      exact ⟨memBy_widen h.1, ih h.2⟩

theorem subsetBy_of_listEq :
    ∀ {xs ys : List Value}, listEq xs ys = true → subsetBy xs ys = true := by
  intro xs
  induction xs with
  | nil => intro ys _; rw [subsetBy]
  | cons x xs ih =>
      intro ys h
      cases ys with
      | nil => simp [listEq] at h
      | cons y ys =>
          rw [listEq] at h
          simp only [Bool.and_eq_true] at h
          rw [subsetBy]
          simp only [Bool.and_eq_true]
          refine ⟨by rw [memBy]; simp [h.1], subsetBy_widen (ih h.2)⟩

theorem deepcopy_valEq_all :
    (∀ (v : Value) (c : Nat), validV v = true →
      valEq (deepcopy v c).1 v = true ∧ valEq v (deepcopy v c).1 = true) ∧
    (∀ (xs : List Value) (c : Nat), validL xs = true →
      listEq (deepcopyL xs c).1 xs = true ∧ listEq xs (deepcopyL xs c).1 = true) ∧
    (∀ (es : Entries) (c : Nat), validE es = true →
      entriesPointwise (deepcopyE es c).1 es = true ∧
        entriesPointwise es (deepcopyE es c).1 = true) := by
  refine deepcopy.mutual_induct
    (fun v c => validV v = true →
      valEq (deepcopy v c).1 v = true ∧ valEq v (deepcopy v c).1 = true)
    (fun xs c => validL xs = true →
      listEq (deepcopyL xs c).1 xs = true ∧ listEq xs (deepcopyL xs c).1 = true)
    (fun es c => validE es = true →
      entriesPointwise (deepcopyE es c).1 es = true ∧
        entriesPointwise es (deepcopyE es c).1 = true)
    ?_ ?_ ?_ ?_ ?_ ?_ ?_ ?_ ?_ ?_ ?_
  · intro n c _; constructor <;> (rw [deepcopy, valEq]; simp)
  · intro b c _; constructor <;> (rw [deepcopy, valEq]; simp)
  · intro s c _; constructor <;> (rw [deepcopy, valEq]; simp)
  · intro f a es c ih hv
    simp only [validV, Bool.and_eq_true] at hv
    obtain ⟨hpw1, hpw2⟩ := ih hv.2
    have hkeys := entriesPointwise_keys hpw1
    have hnd1 : nodupKeys (keysList (deepcopyE es (c + 1)).1) = true := by
      rw [hkeys]; exact hv.1
    have hlen := entriesPointwise_length hpw1
    constructor
    · rw [deepcopy, valEq]
      simp only [Bool.and_eq_true]
      exact ⟨by simp [hlen], entriesPointwise_entriesSub hpw1 hv.1⟩
    · rw [deepcopy, valEq]
      simp only [Bool.and_eq_true]
      exact ⟨by simp [hlen], entriesPointwise_entriesSub hpw2 hnd1⟩
  · intro a xs c ih hv
    rw [validV] at hv
    obtain ⟨h1, h2⟩ := ih hv
    constructor
    · rw [deepcopy, valEq]; exact h1
    · rw [deepcopy, valEq]; exact h2
  · intro a xs c ih hv
    rw [validV] at hv
    obtain ⟨h1, h2⟩ := ih hv
    constructor
    · rw [deepcopy, valEq]
      simp only [Bool.and_eq_true]
      exact ⟨subsetBy_of_listEq h1, subsetBy_of_listEq h2⟩
    · rw [deepcopy, valEq]
      simp only [Bool.and_eq_true]
      exact ⟨subsetBy_of_listEq h2, subsetBy_of_listEq h1⟩
  · intro xs c ih hv
    rw [validV] at hv
    obtain ⟨h1, h2⟩ := ih hv
    constructor
    · rw [deepcopy, valEq]; exact h1
    · rw [deepcopy, valEq]; exact h2
  · intro c _; constructor <;> simp [deepcopyE, entriesPointwise]
  · intro k v es c r ih1 ih2 hv
    have hr : r = deepcopy v c := rfl
    simp only [validE, Bool.and_eq_true] at hv
    obtain ⟨h1, h2⟩ := ih1 hv.1
    obtain ⟨h3, h4⟩ := ih2 hv.2
    rw [hr] at h3 h4
    constructor
    · rw [deepcopyE, entriesPointwise]
      simp [h1, h3]
    · rw [deepcopyE, entriesPointwise]
      simp [h2, h4]
  · intro c _; constructor <;> simp [deepcopyL, listEq]
  · intro x xs c r ih1 ih2 hv
    have hr : r = deepcopy x c := rfl
    simp only [validL, Bool.and_eq_true] at hv
    obtain ⟨h1, h2⟩ := ih1 hv.1
    obtain ⟨h3, h4⟩ := ih2 hv.2
    rw [hr] at h3 h4
    constructor
    · rw [deepcopyL, listEq]
      simp [h1, h3]
    · rw [deepcopyL, listEq]
      simp [h2, h4]

/-! Key counting: two Python dicts of equal size where every key of the first
occurs in the second have exactly the same keys. -/

theorem keys_subset_rev {a b : List String} (ha : a.Nodup) (hb : b.Nodup)
    (hlen : a.length = b.length) (hsub : ∀ k ∈ a, k ∈ b) : ∀ k ∈ b, k ∈ a := by
  have hfin : a.toFinset ⊆ b.toFinset := by
    intro k hk
    rw [List.mem_toFinset] at hk ⊢
    exact hsub k hk
  have hca : a.toFinset.card = a.length := List.toFinset_card_of_nodup ha
  have hcb : b.toFinset.card = b.length := List.toFinset_card_of_nodup hb
  have : a.toFinset = b.toFinset :=
    Finset.eq_of_subset_of_card_le hfin (by omega)
  intro k hk
  rw [← List.mem_toFinset, ← this, List.mem_toFinset] at hk
  exact hk

theorem entriesSub_mem :
    ∀ {es1 es2 : Entries}, entriesSub es1 es2 = true →
      ∀ p ∈ es1, ∃ w, lookupVal p.1 es2 = some w ∧ valEq p.2 w = true := by
  intro es1
  induction es1 with
  | nil => intro es2 _ p hp; simp at hp
  | cons q es1 ih =>
      intro es2 h p hp
      obtain ⟨k, v⟩ := q
      rw [entriesSub] at h
      simp only [Bool.and_eq_true] at h
      rcases List.mem_cons.mp hp with rfl | hp
      · obtain ⟨h1, _⟩ := h
        revert h1
        split
        · next w hw => intro hvw; exact ⟨w, hw, hvw⟩
        · next => intro hf; cases hf
      · exact ih h.2 p hp

theorem dictEq_keys_rev {es1 es2 : Entries}
    (hnd1 : nodupKeys (keysList es1) = true) (hnd2 : nodupKeys (keysList es2) = true)
    (heq : dictEq es1 es2 = true) :
    ∀ k ∈ keysList es2, k ∈ keysList es1 := by
  rw [dictEq, Bool.and_eq_true] at heq
  have hlen : es1.length = es2.length := by
    have := heq.1; simpa using this
  refine keys_subset_rev (nodupKeys_iff.mp hnd1) (nodupKeys_iff.mp hnd2)
    (by rw [keysList_length, keysList_length]; exact hlen) ?_
  intro k hk
  obtain ⟨v, hv⟩ := lookup_isSome_of_mem_keys hk
  obtain ⟨w, hw, _⟩ := entriesSub_mem heq.2 (k, v) (lookupVal_mem hv)
  exact mem_keysList.mpr ⟨w, lookupVal_mem hw⟩

/-! Identity bookkeeping lemmas. -/

theorem mapData_eq {v : Value} {f : Bool} {i : Nat} {es : Entries}
    (h : mapData v = some (f, i, es)) : v = .vmap f i es := by
  cases v <;> simp [mapData] at h
  obtain ⟨h1, h2, h3⟩ := h
  rw [h1, h2, h3]

theorem lookup_ids {k : String} :
    ∀ {es : Entries} {v : Value}, lookupVal k es = some v →
      ∀ i ∈ idsV v, i ∈ idsE es := by
  intro es
  induction es with
  | nil => intro v h; simp [lookupVal] at h
  | cons p es ih =>
      obtain ⟨k2, v2⟩ := p
      intro v h i hi
      simp only [lookupVal] at h
      simp only [idsE, List.mem_append]
      by_cases hk : k = k2
      · simp [hk] at h
        exact Or.inl (h ▸ hi)
      · simp [hk] at h
        exact Or.inr (ih h i hi)

theorem idsE_setVal {k : String} {v : Value} :
    ∀ {es : Entries}, ∀ i ∈ idsE (setVal k v es), i ∈ idsV v ∨ i ∈ idsE es := by
  intro es
  induction es with
  | nil => intro i hi; simp [setVal, idsE] at hi; simp [hi]
  | cons p es ih =>
      obtain ⟨k2, v2⟩ := p
      intro i hi
      by_cases hk : k = k2
      · simp only [setVal, if_pos hk, idsE, List.mem_append] at hi
        rcases hi with hi | hi
        · exact Or.inl hi
        · exact Or.inr (by simp [idsE, List.mem_append, hi])
      · simp only [setVal, if_neg hk, idsE, List.mem_append] at hi
        rcases hi with hi | hi
        · exact Or.inr (by simp [idsE, List.mem_append, hi])
        · rcases ih i hi with h | h
          · exact Or.inl h
          · exact Or.inr (by simp [idsE, List.mem_append, h])

theorem idsL_append :
    ∀ {a b : List Value}, idsL (a ++ b) = idsL a ++ idsL b := by
  intro a
  induction a with
  | nil => intro b; simp [idsL]
  | cons x a ih => intro b; simp [idsL, ih]

theorem setUpdate_ids :
    ∀ {b a : List Value}, ∀ i ∈ idsL (setUpdate a b), i ∈ idsL a ∨ i ∈ idsL b := by
  intro b
  induction b with
  | nil => intro a i hi; rw [setUpdate] at hi; exact Or.inl hi
  | cons e b ih =>
      intro a i hi
      rw [setUpdate] at hi
      by_cases hm : memBy e a = true
      · simp only [if_pos hm] at hi
        rcases ih i hi with h | h
        · exact Or.inl h
        · exact Or.inr (by simp [idsL, List.mem_append, h])
      · simp only [if_neg hm] at hi
        rcases ih i hi with h | h
        · rw [idsL_append] at h
          rcases List.mem_append.mp h with h | h
          · exact Or.inl h
          · simp only [idsL, List.append_nil] at h
            exact Or.inr (by simp [idsL, List.mem_append, h])
        · exact Or.inr (by simp [idsL, List.mem_append, h])

theorem elemsOf_ids {v : Value} : ∀ i ∈ idsL (elemsOf v), i ∈ idsV v := by
  intro i hi
  cases v <;> simp [elemsOf, idsV, idsL] at hi ⊢ <;> simp [hi]

/-! The three handlers of the dispatch table satisfy `HandlerSpec`. -/

theorem handlerSpec_replace : HandlerSpec _handle_merge_replace (fun _ => False) := by
  intro dst src k c
  constructor
  · intro d2 c2 t hok
    simp only [_handle_merge_replace] at hok
    cases hsv : lookupVal k src with
    | none => rw [hsv] at hok; simp at hok
    | some sv =>
        rw [hsv] at hok
        simp only [Prod.mk.injEq, Except.ok.injEq] at hok
        obtain ⟨⟨hd2, hc2⟩, ht⟩ := hok
        refine ⟨?_, ?_, ?_⟩
        · intro k2 hk2
          rw [← hd2]
          exact lookup_setVal_ne hk2
        · rw [← hc2]
          exact deepcopy_counter_le sv c
        · intro i hi
          rw [← hd2] at hi
          rcases idsE_setVal i hi with h | h
          · have := deepcopy_ids_fresh sv c i h
            exact Or.inr (by rw [← hc2]; exact this)
          · exact Or.inl h
  · intro e t hd hs herr
    simp only [_handle_merge_replace] at herr
    cases hsv : lookupVal k src with
    | none => exact absurd hsv hs
    | some sv => rw [hsv] at herr; simp at herr

theorem handlerSpec_additive : HandlerSpec _handle_merge_additive (fun _ => False) := by
  intro dst src k c
  constructor
  · intro d2 c2 t hok
    simp only [_handle_merge_additive] at hok
    split at hok
    · rename_i dv sv hdv hsv
      split at hok
      · rename_i di dxs si sxs
        simp only [Prod.mk.injEq, Except.ok.injEq] at hok
        obtain ⟨⟨hd2, hc2⟩, ht⟩ := hok
        refine ⟨?_, ?_, ?_⟩
        · intro k2 hk2
          rw [← hd2]
          exact lookup_setVal_ne hk2
        · rw [← hc2]
          exact deepcopy_counter_le (.vlist si sxs) c
        · intro i hi
          rw [← hd2] at hi
          rcases idsE_setVal i hi with h | h
          · simp only [idsV, List.mem_cons] at h
            rcases h with rfl | h
            · exact Or.inl (lookup_ids hdv i (by simp [idsV]))
            · rw [idsL_append] at h
              rcases List.mem_append.mp h with h | h
              · exact Or.inl (lookup_ids hdv i (by simp [idsV, h]))
              · have := deepcopy_ids_fresh (.vlist si sxs) c i (elemsOf_ids i h)
                exact Or.inr (by rw [← hc2]; exact this)
          · exact Or.inl h
      · rename_i di dxs si sxs
        simp only [Prod.mk.injEq, Except.ok.injEq] at hok
        obtain ⟨⟨hd2, hc2⟩, ht⟩ := hok
        refine ⟨?_, ?_, ?_⟩
        · intro k2 hk2
          rw [← hd2]
          exact lookup_setVal_ne hk2
        · rw [← hc2]
          exact deepcopy_counter_le (.vset si sxs) c
        · intro i hi
          rw [← hd2] at hi
          rcases idsE_setVal i hi with h | h
          · simp only [idsV, List.mem_cons] at h
            rcases h with rfl | h
            · exact Or.inl (lookup_ids hdv i (by simp [idsV]))
            · rcases setUpdate_ids i h with h | h
              · exact Or.inl (lookup_ids hdv i (by simp [idsV, h]))
              · have := deepcopy_ids_fresh (.vset si sxs) c i (elemsOf_ids i h)
                exact Or.inr (by rw [← hc2]; exact this)
          · exact Or.inl h
      · rename_i dxs sxs
        simp only [Prod.mk.injEq, Except.ok.injEq] at hok
        obtain ⟨⟨hd2, hc2⟩, ht⟩ := hok
        refine ⟨?_, ?_, ?_⟩
        · intro k2 hk2
          rw [← hd2]
          exact lookup_setVal_ne hk2
        · rw [← hc2]
          exact deepcopy_counter_le (.vtup sxs) c
        · intro i hi
          rw [← hd2] at hi
          rcases idsE_setVal i hi with h | h
          · simp only [idsV] at h
            rw [idsL_append] at h
            rcases List.mem_append.mp h with h | h
            · exact Or.inl (lookup_ids hdv i (by simp [idsV, h]))
            · have := deepcopy_ids_fresh (.vtup sxs) c i (elemsOf_ids i h)
              exact Or.inr (by rw [← hc2]; exact this)
          · exact Or.inl h
      · exact (handlerSpec_replace dst src k c).1 d2 c2 t hok
    · simp at hok
  · intro e t hd hs herr
    simp only [_handle_merge_additive] at herr
    split at herr
    · rename_i dv sv hdv hsv
      split at herr
      · simp at herr
      · simp at herr
      · simp at herr
      · exact (handlerSpec_replace dst src k c).2 e t hd hs herr
    · rename_i hcatch
      cases hdd : lookupVal k dst with
      | none => exact absurd hdd hd
      | some dv =>
          cases hss : lookupVal k src with
          | none => exact absurd hss hs
          | some sv => exact (hcatch dv sv hdd hss).elim

theorem handlerSpec_typesafe {inner : Handler}
    (hinner : HandlerSpec inner (fun _ => False)) :
    HandlerSpec (_handle_merge_typesafe inner) (fun e => isTypeMismatch e = true) := by
  intro dst src k c
  constructor
  · intro d2 c2 t hok
    simp only [_handle_merge_typesafe] at hok
    split at hok
    · rename_i dv sv hdv hsv
      split at hok
      · simp at hok
      · rcases hp : inner dst src k c with ⟨r1, t1⟩
        rw [hp] at hok
        simp only [Prod.mk.injEq] at hok
        obtain ⟨h1, h2⟩ := hok
        cases r1 with
        | error e2 => simp at h1
        | ok p =>
            obtain ⟨dd, cc⟩ := p
            have hsp := (hinner dst src k c).1 dd cc t1 hp
            have hdd : dd = d2 := by
              injection h1 with h1
              exact (Prod.mk.injEq .. ▸ h1).1
            have hcc : cc = c2 := by
              injection h1 with h1
              exact (Prod.mk.injEq .. ▸ h1).2
            rw [← hdd, ← hcc]
            exact hsp
    · simp at hok
  · intro e t hd hs herr
    simp only [_handle_merge_typesafe] at herr
    split at herr
    · rename_i dv sv hdv hsv
      split at herr
      · simp only [Prod.mk.injEq, Except.error.injEq] at herr
        rw [← herr.1]
        rfl
      · rcases hp : inner dst src k c with ⟨r1, t1⟩
        rw [hp] at herr
        simp only [Prod.mk.injEq] at herr
        obtain ⟨h1, h2⟩ := herr
        cases r1 with
        | ok p => simp at h1
        | error e2 =>
            exact absurd ((hinner dst src k c).2 e2 t1 hd hs hp) (by simp)
    · rename_i hcatch
      cases hdd : lookupVal k dst with
      | none => exact absurd hdd hd
      | some dv =>
          cases hss : lookupVal k src with
          | none => exact absurd hss hs
          | some sv => exact (hcatch dv sv hdd hss).elim

/-! Branch equations for `mergeEntry` and `mergeLoop`. -/

theorem mergeEntry_keyErr {hc : Callee} {dst src : Entries} {k : String} {c : Nat}
    (hsv : lookupVal k src = none) :
    mergeEntry hc dst src k c = (.error (.keyError k), []) := by
  cases hc with
  | callable h =>
      rw [mergeEntry.eq_1]
      split
      · rfl
      · next sv2 hsv2 => rw [hsv2] at hsv; cases hsv
  | enumMember s =>
      rw [mergeEntry.eq_2]
      split
      · rfl
      · next sv2 hsv2 => rw [hsv2] at hsv; cases hsv

theorem mergeEntry_insert {hc : Callee} {dst src : Entries} {k : String} {c : Nat}
    {sv : Value} (hsv : lookupVal k src = some sv) (hdv : lookupVal k dst = none) :
    mergeEntry hc dst src k c =
      (.ok (setVal k (deepcopy sv c).1 dst, (deepcopy sv c).2), []) := by
  cases hc with
  | callable h =>
      rw [mergeEntry.eq_1]
      split
      · next hsv2 => rw [hsv2] at hsv; cases hsv
      · next sv2 hsv2 =>
          rw [hsv2] at hsv
          injection hsv with e
          subst e
          split
          · rfl
          · next dv2 hdv2 => rw [hdv2] at hdv; cases hdv
  | enumMember s =>
      rw [mergeEntry.eq_2]
      split
      · next hsv2 => rw [hsv2] at hsv; cases hsv
      · next sv2 hsv2 =>
          rw [hsv2] at hsv
          injection hsv with e
          subst e
          split
          · rfl
          · next dv2 hdv2 => rw [hdv2] at hdv; cases hdv

theorem mergeEntry_recurse {hc : Callee} {dst src : Entries} {k : String} {c : Nat}
    {sv dv : Value} {df sf : Bool} {di si : Nat} {des ses : Entries}
    (hsv : lookupVal k src = some sv) (hdv : lookupVal k dst = some dv)
    (hmd : mapData dv = some (df, di, des)) (hms : mapData sv = some (sf, si, ses)) :
    mergeEntry hc dst src k c =
      (match _deepmerge hc des ses c with
       | (.ok (des2, c2), t) => (.ok (setVal k (.vmap df di des2) dst, c2), .recurse k :: t)
       | (.error e, t) => (.error e, .recurse k :: t)) := by
  cases hc with
  | callable h =>
      rw [mergeEntry.eq_1]
      split
      · next hsv2 => rw [hsv2] at hsv; cases hsv
      · next sv2 hsv2 =>
          rw [hsv2] at hsv
          injection hsv with e
          subst e
          split
          · next hdv2 => rw [hdv2] at hdv; cases hdv
          · next dv2 hdv2 =>
              rw [hdv2] at hdv
              injection hdv with e
              subst e
              split
              · next hmd2 hms2 =>
                  rw [hmd2] at hmd
                  rw [hms2] at hms
                  injection hmd with e1
                  injection hms with e2
                  injection e1 with e3 e4
                  injection e4 with e4 e5
                  injection e2 with e6 e7
                  injection e7 with e7 e8
                  subst e3; subst e4; subst e5; subst e8
                  rfl
              · next hcatch => exact (hcatch df di des sf si ses hmd hms).elim
  | enumMember s =>
      rw [mergeEntry.eq_2]
      split
      · next hsv2 => rw [hsv2] at hsv; cases hsv
      · next sv2 hsv2 =>
          rw [hsv2] at hsv
          injection hsv with e
          subst e
          split
          · next hdv2 => rw [hdv2] at hdv; cases hdv
          · next dv2 hdv2 =>
              rw [hdv2] at hdv
              injection hdv with e
              subst e
              split
              · next hmd2 hms2 =>
                  rw [hmd2] at hmd
                  rw [hms2] at hms
                  injection hmd with e1
                  injection hms with e2
                  injection e1 with e3 e4
                  injection e4 with e4 e5
                  injection e2 with e6 e7
                  injection e7 with e7 e8
                  subst e3; subst e4; subst e5; subst e8
                  rfl
              · next hcatch => exact (hcatch df di des sf si ses hmd hms).elim

theorem mergeEntry_pass {hc : Callee} {dst src : Entries} {k : String} {c : Nat}
    {sv dv : Value}
    (hsv : lookupVal k src = some sv) (hdv : lookupVal k dst = some dv)
    (hnm : mapData dv = none ∨ mapData sv = none) (heq : valEq dv sv = true) :
    mergeEntry hc dst src k c = (.ok (dst, c), []) := by
  cases hc with
  | callable h =>
      rw [mergeEntry.eq_1]
      split
      · next hsv2 => rw [hsv2] at hsv; cases hsv
      · next sv2 hsv2 =>
          rw [hsv2] at hsv
          injection hsv with e
          subst e
          split
          · next hdv2 => rw [hdv2] at hdv; cases hdv
          · next dv2 hdv2 =>
              rw [hdv2] at hdv
              injection hdv with e
              subst e
              split
              · next hmd2 hms2 =>
                  rw [hmd2, hms2] at hnm
                  rcases hnm with h2 | h2 <;> cases h2
              · rw [if_pos heq]
  | enumMember s =>
      rw [mergeEntry.eq_2]
      split
      · next hsv2 => rw [hsv2] at hsv; cases hsv
      · next sv2 hsv2 =>
          rw [hsv2] at hsv
          injection hsv with e
          subst e
          split
          · next hdv2 => rw [hdv2] at hdv; cases hdv
          · next dv2 hdv2 =>
              rw [hdv2] at hdv
              injection hdv with e
              subst e
              split
              · next hmd2 hms2 =>
                  rw [hmd2, hms2] at hnm
                  rcases hnm with h2 | h2 <;> cases h2
              · rw [if_pos heq]

theorem mergeEntry_conflict {hc : Callee} {dst src : Entries} {k : String} {c : Nat}
    {sv dv : Value}
    (hsv : lookupVal k src = some sv) (hdv : lookupVal k dst = some dv)
    (hnm : mapData dv = none ∨ mapData sv = none) (heq : valEq dv sv = false) :
    mergeEntry hc dst src k c =
      (match hc with
       | .callable h => ((h dst src k c).1, .handler k :: (h dst src k c).2)
       | .enumMember _ => (.error .notCallable, [.handler k])) := by
  cases hc with
  | callable h =>
      rw [mergeEntry.eq_1]
      split
      · next hsv2 => rw [hsv2] at hsv; cases hsv
      · next sv2 hsv2 =>
          rw [hsv2] at hsv
          injection hsv with e
          subst e
          split
          · next hdv2 => rw [hdv2] at hdv; cases hdv
          · next dv2 hdv2 =>
              rw [hdv2] at hdv
              injection hdv with e
              subst e
              split
              · next hmd2 hms2 =>
                  rw [hmd2, hms2] at hnm
                  rcases hnm with h2 | h2 <;> cases h2
              · rw [if_neg (by simp [heq])]
  | enumMember s =>
      rw [mergeEntry.eq_2]
      split
      · next hsv2 => rw [hsv2] at hsv; cases hsv
      · next sv2 hsv2 =>
          rw [hsv2] at hsv
          injection hsv with e
          subst e
          split
          · next hdv2 => rw [hdv2] at hdv; cases hdv
          · next dv2 hdv2 =>
              rw [hdv2] at hdv
              injection hdv with e
              subst e
              split
              · next hmd2 hms2 =>
                  rw [hmd2, hms2] at hnm
                  rcases hnm with h2 | h2 <;> cases h2
              · rw [if_neg (by simp [heq])]

theorem _deepmerge_eq {hc : Callee} {dst src : Entries} {c : Nat} :
    _deepmerge hc dst src c = mergeLoop hc dst src (keysList src) c := by
  rw [_deepmerge]

theorem mergeLoop_nil {hc : Callee} {dst src : Entries} {c : Nat} :
    mergeLoop hc dst src [] c = (.ok (dst, c), []) := by
  rw [mergeLoop]

theorem mergeLoop_cons_ok {hc : Callee} {dst src : Entries} {k : String}
    {ks : List String} {c : Nat} {dst2 : Entries} {c2 : Nat} {t : List Event}
    (hentry : mergeEntry hc dst src k c = (.ok (dst2, c2), t)) :
    mergeLoop hc dst src (k :: ks) c =
      ((mergeLoop hc dst2 src ks c2).1, t ++ (mergeLoop hc dst2 src ks c2).2) := by
  rw [mergeLoop]
  split
  · next dst3 c3 t3 heq =>
      rw [hentry] at heq
      injection heq with e1 e2
      injection e1 with e1
      injection e1 with e3 e4
      subst e3; subst e4; subst e2
      rfl
  · next e3 t3 heq =>
      rw [hentry] at heq
      simp at heq

theorem mergeLoop_cons_err {hc : Callee} {dst src : Entries} {k : String}
    {ks : List String} {c : Nat} {e : MergeError} {t : List Event}
    (hentry : mergeEntry hc dst src k c = (.error e, t)) :
    mergeLoop hc dst src (k :: ks) c = (.error e, t) := by
  rw [mergeLoop]
  split
  · next dst3 c3 t3 heq =>
      rw [hentry] at heq
      simp at heq
  · next e3 t3 heq =>
      rw [hentry] at heq
      injection heq with e1 e2
      injection e1 with e1
      subst e1; subst e2
      rfl

theorem mergeSources_nil {hc : Callee} {dst : Entries} {c : Nat} :
    mergeSources hc dst [] c = (.ok (dst, c), []) := rfl

theorem mergeSources_cons_ok {hc : Callee} {dst : Entries} {s : Entries}
    {rest : List Entries} {c : Nat} {d2 : Entries} {c2 : Nat} {t : List Event}
    (h : _deepmerge hc dst s c = (.ok (d2, c2), t)) :
    mergeSources hc dst (s :: rest) c =
      ((mergeSources hc d2 rest c2).1, t ++ (mergeSources hc d2 rest c2).2) := by
  rw [mergeSources]
  rw [h]

theorem mergeSources_cons_err {hc : Callee} {dst : Entries} {s : Entries}
    {rest : List Entries} {c : Nat} {e : MergeError} {t : List Event}
    (h : _deepmerge hc dst s c = (.error e, t)) :
    mergeSources hc dst (s :: rest) c = (.error e, t) := by
  rw [mergeSources]
  rw [h]

/-! The master invariant of the merge traversal: on success the identity
counter is monotone, every identity of the result is either an identity the
destination already had or a freshly allocated one, and only keys of the
source are rebound; on failure the error is one a handler may raise
(`errOk`), or the "not callable" TypeError when the strategy was unknown. -/

theorem deepmerge_master (hc : Callee) (errOk : MergeError → Prop)
    (hspec : ∀ h, hc = .callable h → HandlerSpec h errOk) :
    (∀ (dst src : Entries) (c : Nat),
      (∀ res c2 t, _deepmerge hc dst src c = (.ok (res, c2), t) →
        c ≤ c2 ∧ (∀ i ∈ idsE res, i ∈ idsE dst ∨ (c ≤ i ∧ i < c2)) ∧
        (∀ k2, k2 ∉ keysList src → lookupVal k2 res = lookupVal k2 dst)) ∧
      (∀ e t, _deepmerge hc dst src c = (.error e, t) →
        errOk e ∨ (∃ s, hc = .enumMember s ∧ e = .notCallable))) ∧
    (∀ (dst src : Entries) (ks : List String) (c : Nat),
      (∀ k ∈ ks, k ∈ keysList src) →
      (∀ res c2 t, mergeLoop hc dst src ks c = (.ok (res, c2), t) →
        c ≤ c2 ∧ (∀ i ∈ idsE res, i ∈ idsE dst ∨ (c ≤ i ∧ i < c2)) ∧
        (∀ k2, k2 ∉ ks → lookupVal k2 res = lookupVal k2 dst)) ∧
      (∀ e t, mergeLoop hc dst src ks c = (.error e, t) →
        errOk e ∨ (∃ s, hc = .enumMember s ∧ e = .notCallable))) ∧
    (∀ (dst src : Entries) (k : String) (c : Nat),
      k ∈ keysList src →
      (∀ res c2 t, mergeEntry hc dst src k c = (.ok (res, c2), t) →
        c ≤ c2 ∧ (∀ i ∈ idsE res, i ∈ idsE dst ∨ (c ≤ i ∧ i < c2)) ∧
        (∀ k2, k2 ≠ k → lookupVal k2 res = lookupVal k2 dst)) ∧
      (∀ e t, mergeEntry hc dst src k c = (.error e, t) →
        errOk e ∨ (∃ s, hc = .enumMember s ∧ e = .notCallable))) := by
  refine _deepmerge.mutual_induct hc
    (fun dst src c =>
      (∀ res c2 t, _deepmerge hc dst src c = (.ok (res, c2), t) →
        c ≤ c2 ∧ (∀ i ∈ idsE res, i ∈ idsE dst ∨ (c ≤ i ∧ i < c2)) ∧
        (∀ k2, k2 ∉ keysList src → lookupVal k2 res = lookupVal k2 dst)) ∧
      (∀ e t, _deepmerge hc dst src c = (.error e, t) →
        errOk e ∨ (∃ s, hc = .enumMember s ∧ e = .notCallable)))
    (fun dst src ks c =>
      (∀ k ∈ ks, k ∈ keysList src) →
      (∀ res c2 t, mergeLoop hc dst src ks c = (.ok (res, c2), t) →
        c ≤ c2 ∧ (∀ i ∈ idsE res, i ∈ idsE dst ∨ (c ≤ i ∧ i < c2)) ∧
        (∀ k2, k2 ∉ ks → lookupVal k2 res = lookupVal k2 dst)) ∧
      (∀ e t, mergeLoop hc dst src ks c = (.error e, t) →
        errOk e ∨ (∃ s, hc = .enumMember s ∧ e = .notCallable)))
    (fun dst src k c =>
      k ∈ keysList src →
      (∀ res c2 t, mergeEntry hc dst src k c = (.ok (res, c2), t) →
        c ≤ c2 ∧ (∀ i ∈ idsE res, i ∈ idsE dst ∨ (c ≤ i ∧ i < c2)) ∧
        (∀ k2, k2 ≠ k → lookupVal k2 res = lookupVal k2 dst)) ∧
      (∀ e t, mergeEntry hc dst src k c = (.error e, t) →
        errOk e ∨ (∃ s, hc = .enumMember s ∧ e = .notCallable)))
    ?_ ?_ ?_ ?_ ?_ ?_ ?_ ?_ ?_ ?_ ?_
  · intro dst src c ih
    have h2 := ih (fun k hk => hk)
    constructor
    · intro res c2 t hok
      rw [_deepmerge_eq] at hok
      exact h2.1 res c2 t hok
    · intro e t herr
      rw [_deepmerge_eq] at herr
      exact h2.2 e t herr
  · intro dst src c _
    constructor
    · intro res c2 t hok
      rw [mergeLoop_nil] at hok
      injection hok with e1 e2
      injection e1 with e1
      injection e1 with e3 e4
      subst e3; subst e4
      exact ⟨le_refl _, fun i hi => Or.inl hi, fun _ _ => rfl⟩
    · intro e t herr
      rw [mergeLoop_nil] at herr
      simp at herr
  · intro dst src c k ks dst2 c2 t hentry ih3 ih2 hks
    have hkk : k ∈ keysList src := hks k (List.mem_cons_self _ _)
    have hent := ih3 hkk
    have hloop := ih2 (fun k2 hk2 => hks k2 (List.mem_cons_of_mem _ hk2))
    obtain ⟨he1, he2, he3⟩ := hent.1 dst2 c2 t hentry
    constructor
    · intro res c3 tt hok
      rw [mergeLoop_cons_ok hentry] at hok
      rcases hr : mergeLoop hc dst2 src ks c2 with ⟨r1, t1⟩
      rw [hr] at hok
      injection hok with e1 e2
      rcases r1 with p | p
      · cases e1
      · obtain ⟨res2, c4⟩ := p
        injection e1 with e1
        injection e1 with e3 e4
        subst e3; subst e4
        obtain ⟨hl1, hl2, hl3⟩ := hloop.1 _ _ t1 hr
        refine ⟨by omega, ?_, ?_⟩
        · intro i hi
          rcases hl2 i hi with h | h
          · rcases he2 i h with h | h
            · exact Or.inl h
            · exact Or.inr (by omega)
          · exact Or.inr (by omega)
        · intro k2 hk2
          simp only [List.mem_cons] at hk2
          push_neg at hk2
          rw [hl3 k2 hk2.2, he3 k2 hk2.1]
    · intro e tt herr
      rw [mergeLoop_cons_ok hentry] at herr
      rcases hr : mergeLoop hc dst2 src ks c2 with ⟨r1, t1⟩
      rw [hr] at herr
      injection herr with e1 e2
      rcases r1 with p | p
      · injection e1 with e1
        subst e1
        exact hloop.2 p t1 hr
      · cases e1
  · intro dst src c k ks e t hentry ih3 hks
    have hkk : k ∈ keysList src := hks k (List.mem_cons_self _ _)
    have hent := ih3 hkk
    constructor
    · intro res c2 tt hok
      rw [mergeLoop_cons_err hentry] at hok
      simp at hok
    · intro e2 tt herr
      rw [mergeLoop_cons_err hentry] at herr
      injection herr with e1 e3
      injection e1 with e1
      subst e1
      exact hent.2 e t hentry
  · intro dst src k c hsv hk
    exact absurd (lookup_isSome_of_mem_keys hk) (by simp [hsv])
  · intro dst src k c sv hsv hdv _
    constructor
    · intro res c2 t hok
      rw [mergeEntry_insert hsv hdv] at hok
      injection hok with e1 e2
      injection e1 with e1
      injection e1 with e3 e4
      subst e3; subst e4
      refine ⟨deepcopy_counter_le sv c, ?_, ?_⟩
      · intro i hi
        rcases idsE_setVal i hi with h | h
        · exact Or.inr (deepcopy_ids_fresh sv c i h)
        · exact Or.inl h
      · intro k2 hk2
        exact lookup_setVal_ne hk2
    · intro e t herr
      rw [mergeEntry_insert hsv hdv] at herr
      simp at herr
  · intro dst src k c sv hsv dv hdv df di des sf si ses hmd hms dst2 c2 t hrec ih1 _
    have hdveq : dv = .vmap df di des := mapData_eq hmd
    obtain ⟨hr1, hr2, _⟩ := ih1.1 dst2 c2 t hrec
    have hval : mergeEntry hc dst src k c =
        (.ok (setVal k (.vmap df di dst2) dst, c2), .recurse k :: t) := by
      rw [mergeEntry_recurse hsv hdv hmd hms, hrec]
    constructor
    · intro res c3 tt hok
      rw [hval] at hok
      injection hok with e1 e2
      injection e1 with e1
      injection e1 with e3 e4
      subst e3; subst e4
      refine ⟨hr1, ?_, ?_⟩
      · intro i hi
        rcases idsE_setVal i hi with h | h
        · simp only [idsV, List.mem_cons] at h
          rcases h with rfl | h
          · refine Or.inl (lookup_ids hdv i ?_)
            rw [hdveq]
            simp [idsV]
          · rcases hr2 i h with h | h
            · refine Or.inl (lookup_ids hdv i ?_)
              rw [hdveq]
              simp [idsV, h]
            · exact Or.inr h
        · exact Or.inl h
      · intro k2 hk2
        exact lookup_setVal_ne hk2
    · intro e tt herr
      rw [hval] at herr
      simp at herr
  · intro dst src k c sv hsv dv hdv df di des sf si ses hmd hms e t hrec ih1 _
    have hval : mergeEntry hc dst src k c = (.error e, .recurse k :: t) := by
      rw [mergeEntry_recurse hsv hdv hmd hms, hrec]
    constructor
    · intro res c3 tt hok
      rw [hval] at hok
      simp at hok
    · intro e2 tt herr
      rw [hval] at herr
      injection herr with e1 e3
      injection e1 with e1
      subst e1
      exact ih1.2 e t hrec
  · intro dst src k c sv hsv dv hdv heq hnotmap _
    have hnm : mapData dv = none ∨ mapData sv = none := by
      cases hmd : mapData dv with
      | none => exact Or.inl rfl
      | some p =>
          cases hms : mapData sv with
          | none => exact Or.inr rfl
          | some q =>
              obtain ⟨f1, i1, e1⟩ := p
              obtain ⟨f2, i2, e2⟩ := q
              exact (hnotmap f1 i1 e1 f2 i2 e2 hmd hms).elim
    have hval := @mergeEntry_pass hc dst src k c sv dv hsv hdv hnm heq
    constructor
    · intro res c2 t hok
      rw [hval] at hok
      injection hok with e1 e2
      injection e1 with e1
      injection e1 with e3 e4
      subst e3; subst e4
      exact ⟨le_refl _, fun i hi => Or.inl hi, fun _ _ => rfl⟩
    · intro e t herr
      rw [hval] at herr
      simp at herr
  · intro dst src k c sv hsv dv hdv hneq h hceq hnotmap _
    have heqf : valEq dv sv = false := by
      simp only [Bool.not_eq_true] at hneq
      exact hneq
    have hnm : mapData dv = none ∨ mapData sv = none := by
      cases hmd : mapData dv with
      | none => exact Or.inl rfl
      | some p =>
          cases hms : mapData sv with
          | none => exact Or.inr rfl
          | some q =>
              obtain ⟨f1, i1, e1⟩ := p
              obtain ⟨f2, i2, e2⟩ := q
              exact (hnotmap f1 i1 e1 f2 i2 e2 hmd hms).elim
    have hval : mergeEntry hc dst src k c =
        ((h dst src k c).1, .handler k :: (h dst src k c).2) := by
      rw [mergeEntry_conflict hsv hdv hnm heqf, hceq]
    have hsp := hspec h hceq dst src k c
    constructor
    · intro res c2 t hok
      rcases hp : h dst src k c with ⟨r1, t1⟩
      rw [hp] at hval
      rw [hval] at hok
      injection hok with e1 e2
      rcases r1 with p | p
      · cases e1
      · obtain ⟨dd, cc⟩ := p
        injection e1 with e1
        injection e1 with e3 e4
        subst e3; subst e4
        have := hsp.1 _ _ t1 hp
        exact ⟨this.2.1, this.2.2, this.1⟩
    · intro e t herr
      rcases hp : h dst src k c with ⟨r1, t1⟩
      rw [hp] at hval
      rw [hval] at herr
      injection herr with e1 e2
      rcases r1 with p | p
      · injection e1 with e1
        subst e1
        exact Or.inl (hsp.2 p t1 (by simp [hdv]) (by simp [hsv]) hp)
      · cases e1
  · intro dst src k c sv hsv dv hdv hneq s hceq hnotmap _
    have heqf : valEq dv sv = false := by
      simp only [Bool.not_eq_true] at hneq
      exact hneq
    have hnm : mapData dv = none ∨ mapData sv = none := by
      cases hmd : mapData dv with
      | none => exact Or.inl rfl
      | some p =>
          cases hms : mapData sv with
          | none => exact Or.inr rfl
          | some q =>
              obtain ⟨f1, i1, e1⟩ := p
              obtain ⟨f2, i2, e2⟩ := q
              exact (hnotmap f1 i1 e1 f2 i2 e2 hmd hms).elim
    have hval : mergeEntry hc dst src k c = (.error .notCallable, [.handler k]) := by
      rw [mergeEntry_conflict hsv hdv hnm heqf, hceq]
    constructor
    · intro res c2 t hok
      rw [hval] at hok
      simp at hok
    · intro e t herr
      rw [hval] at herr
      injection herr with e1 e2
      injection e1 with e1
      subst e1
      exact Or.inr ⟨s, hceq, rfl⟩

/-! Corollaries of the master invariant at the level of `merge`. -/

theorem handlerSpec_mono {h : Handler} {P Q : MergeError → Prop}
    (hs : HandlerSpec h P) (hpq : ∀ e, P e → Q e) : HandlerSpec h Q := by
  intro dst src k c
  refine ⟨(hs dst src k c).1, ?_⟩
  intro e t hd hsrc herr
  exact hpq e ((hs dst src k c).2 e t hd hsrc herr)

theorem handlerSpec_typeM (s : Strategy) :
    HandlerSpec (_handle_merge s) (fun e => isTypeMismatch e = true) := by
  cases s with
  | REPLACE => exact handlerSpec_mono handlerSpec_replace (fun e h => h.elim)
  | ADDITIVE => exact handlerSpec_mono handlerSpec_additive (fun e h => h.elim)
  | TYPESAFE => exact handlerSpec_typesafe handlerSpec_replace
  | TYPESAFE_REPLACE => exact handlerSpec_typesafe handlerSpec_replace
  | TYPESAFE_ADDITIVE => exact handlerSpec_typesafe handlerSpec_additive

theorem mergeSources_err {hc : Callee} {errOk : MergeError → Prop}
    (hspec : ∀ h, hc = .callable h → HandlerSpec h errOk) :
    ∀ {srcs : List Entries} {dst : Entries} {c : Nat} {e : MergeError} {t : List Event},
      mergeSources hc dst srcs c = (.error e, t) →
      errOk e ∨ (∃ s, hc = .enumMember s ∧ e = .notCallable) := by
  intro srcs
  induction srcs with
  | nil =>
      intro dst c e t herr
      rw [mergeSources_nil] at herr
      simp at herr
  | cons s1 rest ih =>
      intro dst c e t herr
      rcases hd : _deepmerge hc dst s1 c with ⟨r1, t1⟩
      rcases r1 with e2 | p
      · rw [mergeSources_cons_err hd] at herr
        injection herr with e1 e3
        injection e1 with e1
        subst e1
        exact ((deepmerge_master hc errOk hspec).1 dst s1 c).2 e2 t1 hd
      · obtain ⟨d2, c2⟩ := p
        rw [mergeSources_cons_ok hd] at herr
        rcases hr : mergeSources hc d2 rest c2 with ⟨r2, t2⟩
        rw [hr] at herr
        injection herr with e1 e3
        rcases r2 with e4 | p2
        · injection e1 with e1
          subst e1
          exact ih hr
        · cases e1

theorem mergeSources_total {hc : Callee} {h0 : Handler}
    (hcal : hc = .callable h0)
    (hspec : ∀ h, hc = .callable h → HandlerSpec h (fun _ => False)) :
    ∀ {srcs : List Entries} {dst : Entries} {c : Nat},
      ∃ res c2 t, mergeSources hc dst srcs c = (.ok (res, c2), t) := by
  intro srcs dst c
  rcases hr : mergeSources hc dst srcs c with ⟨r1, t1⟩
  rcases r1 with e | p
  · rcases mergeSources_err hspec hr with h | ⟨s, hs, _⟩
    · exact h.elim
    · rw [hcal] at hs; cases hs
  · obtain ⟨res, c2⟩ := p
    exact ⟨res, c2, t1, rfl⟩

theorem mergeSources_ids {hc : Callee} {errOk : MergeError → Prop}
    (hspec : ∀ h, hc = .callable h → HandlerSpec h errOk) :
    ∀ {srcs : List Entries} {dst : Entries} {c : Nat} {res : Entries} {c2 : Nat}
      {t : List Event},
      mergeSources hc dst srcs c = (.ok (res, c2), t) →
      c ≤ c2 ∧ (∀ i ∈ idsE res, i ∈ idsE dst ∨ (c ≤ i ∧ i < c2)) := by
  intro srcs
  induction srcs with
  | nil =>
      intro dst c res c2 t hok
      rw [mergeSources_nil] at hok
      injection hok with e1 e2
      injection e1 with e1
      injection e1 with e3 e4
      subst e3; subst e4
      exact ⟨le_refl _, fun i hi => Or.inl hi⟩
  | cons s1 rest ih =>
      intro dst c res c2 t hok
      rcases hd : _deepmerge hc dst s1 c with ⟨r1, t1⟩
      rcases r1 with e2 | p
      · rw [mergeSources_cons_err hd] at hok
        simp at hok
      · obtain ⟨d2, c3⟩ := p
        rw [mergeSources_cons_ok hd] at hok
        rcases hr : mergeSources hc d2 rest c3 with ⟨r2, t2⟩
        rw [hr] at hok
        injection hok with e1 e3
        rcases r2 with e4 | p2
        · cases e1
        · obtain ⟨res2, c4⟩ := p2
          injection e1 with e1
          injection e1 with e5 e6
          subst e5; subst e6
          obtain ⟨hm1, hm2, _⟩ :=
            ((deepmerge_master hc errOk hspec).1 dst s1 c).1 d2 c3 t1 hd
          obtain ⟨hi1, hi2⟩ := ih hr
          refine ⟨by omega, ?_⟩
          intro i hi
          rcases hi2 i hi with h | h
          · rcases hm2 i h with h | h
            · exact Or.inl h
            · exact Or.inr (by omega)
          · exact Or.inr (by omega)

/-! Merging a dict into an `==`-equal destination dict is a no-op: nothing is
rebound, nothing raises, no conflict handler is dispatched (the trace holds
only recursion markers). -/

theorem dictEq_src_binding {dst src : Entries}
    (hd : validDict dst = true) (hs : validDict src = true)
    (heq : dictEq dst src = true) {k : String} {sv : Value}
    (hsv : lookupVal k src = some sv) :
    ∃ dv, lookupVal k dst = some dv ∧ valEq dv sv = true := by
  rw [validDict, Bool.and_eq_true] at hd hs
  have hk : k ∈ keysList dst :=
    dictEq_keys_rev hd.1 hs.1 heq k (mem_keysList.mpr ⟨sv, lookupVal_mem hsv⟩)
  obtain ⟨dv, hdv⟩ := lookup_isSome_of_mem_keys hk
  rw [dictEq, Bool.and_eq_true] at heq
  obtain ⟨w, hw, hvw⟩ := entriesSub_mem heq.2 (k, dv) (lookupVal_mem hdv)
  rw [hsv] at hw
  injection hw with e
  exact ⟨dv, hdv, e ▸ hvw⟩

theorem validV_dict {f : Bool} {i : Nat} {es : Entries}
    (h : validV (.vmap f i es) = true) : validDict es = true := by
  rw [validV] at h
  rw [validDict]
  exact h

theorem deepmerge_noop (hc : Callee) :
    (∀ (dst src : Entries) (c : Nat),
      validDict dst = true → validDict src = true → dictEq dst src = true →
      ∃ t, _deepmerge hc dst src c = (.ok (dst, c), t) ∧ t.all eventIsRecurse = true) ∧
    (∀ (dst src : Entries) (ks : List String) (c : Nat),
      validDict dst = true → validDict src = true → dictEq dst src = true →
      (∀ k ∈ ks, k ∈ keysList src) →
      ∃ t, mergeLoop hc dst src ks c = (.ok (dst, c), t) ∧ t.all eventIsRecurse = true) ∧
    (∀ (dst src : Entries) (k : String) (c : Nat),
      validDict dst = true → validDict src = true → dictEq dst src = true →
      k ∈ keysList src →
      ∃ t, mergeEntry hc dst src k c = (.ok (dst, c), t) ∧ t.all eventIsRecurse = true) := by
  refine _deepmerge.mutual_induct hc
    (fun dst src c =>
      validDict dst = true → validDict src = true → dictEq dst src = true →
      ∃ t, _deepmerge hc dst src c = (.ok (dst, c), t) ∧ t.all eventIsRecurse = true)
    (fun dst src ks c =>
      validDict dst = true → validDict src = true → dictEq dst src = true →
      (∀ k ∈ ks, k ∈ keysList src) →
      ∃ t, mergeLoop hc dst src ks c = (.ok (dst, c), t) ∧ t.all eventIsRecurse = true)
    (fun dst src k c =>
      validDict dst = true → validDict src = true → dictEq dst src = true →
      k ∈ keysList src →
      ∃ t, mergeEntry hc dst src k c = (.ok (dst, c), t) ∧ t.all eventIsRecurse = true)
    ?_ ?_ ?_ ?_ ?_ ?_ ?_ ?_ ?_ ?_ ?_
  · intro dst src c ih hd hs heq
    obtain ⟨t, ht, hall⟩ := ih hd hs heq (fun k hk => hk)
    exact ⟨t, by rw [_deepmerge_eq]; exact ht, hall⟩
  · intro dst src c _ _ _ _
    exact ⟨[], mergeLoop_nil, rfl⟩
  · intro dst src c k ks dst2 c2 t hentry ih3 ih2 hd hs heq hks
    obtain ⟨t3, ht3, hall3⟩ := ih3 hd hs heq (hks k (List.mem_cons_self _ _))
    rw [hentry] at ht3
    injection ht3 with e1 e2
    injection e1 with e1
    injection e1 with e3 e4
    subst e3; subst e4; subst e2
    obtain ⟨t2, ht2, hall2⟩ := ih2 hd hs heq (fun k2 hk2 => hks k2 (List.mem_cons_of_mem _ hk2))
    refine ⟨t ++ t2, ?_, ?_⟩
    · simp only [mergeLoop_cons_ok hentry, ht2]
    · simp only [List.all_append, Bool.and_eq_true]
      exact ⟨hall3, hall2⟩
  · intro dst src c k ks e t hentry ih3 hd hs heq hks
    obtain ⟨t3, ht3, _⟩ := ih3 hd hs heq (hks k (List.mem_cons_self _ _))
    rw [hentry] at ht3
    injection ht3 with e1 e2
    cases e1
  · intro dst src k c hsv hd hs heq hk
    exact absurd (lookup_isSome_of_mem_keys hk) (by simp [hsv])
  · intro dst src k c sv hsv hdvnone hd hs heq _
    obtain ⟨dv, hdv, _⟩ := dictEq_src_binding hd hs heq hsv
    rw [hdvnone] at hdv
    cases hdv
  · intro dst src k c sv hsv dv hdv df di des sf si ses hmd hms dst2 c2 t hrec ih1 hd hs heq _
    obtain ⟨dv2, hdv2, hvv⟩ := dictEq_src_binding hd hs heq hsv
    rw [hdv] at hdv2
    injection hdv2 with e
    subst e
    have hdveq := mapData_eq hmd
    have hsveq := mapData_eq hms
    have hinner_eq : dictEq des ses = true := by
      rw [hdveq, hsveq] at hvv
      rw [valEq] at hvv
      rw [dictEq]
      exact hvv
    have hvd : validDict des = true := by
      rw [validDict, Bool.and_eq_true] at hd
      exact validV_dict (hdveq ▸ validE_lookup hd.2 hdv)
    have hvs : validDict ses = true := by
      rw [validDict, Bool.and_eq_true] at hs
      exact validV_dict (hsveq ▸ validE_lookup hs.2 hsv)
    obtain ⟨t2, ht2, hall2⟩ := ih1 hvd hvs hinner_eq
    rw [hrec] at ht2
    injection ht2 with e1 e2
    injection e1 with e1
    injection e1 with e3 e4
    subst e3; subst e4; subst e2
    have hval : mergeEntry hc dst src k c2 =
        (.ok (setVal k (Value.vmap df di dst2) dst, c2), .recurse k :: t) := by
      rw [mergeEntry_recurse hsv hdv hmd hms, hrec]
    have hset : setVal k (Value.vmap df di dst2) dst = dst := by
      rw [← hdveq]
      exact setVal_lookup_self hdv
    refine ⟨.recurse k :: t, ?_, ?_⟩
    · rw [hval, hset]
    · simp only [List.all_cons, Bool.and_eq_true]
      exact ⟨rfl, hall2⟩
  · intro dst src k c sv hsv dv hdv df di des sf si ses hmd hms e t hrec ih1 hd hs heq _
    obtain ⟨dv2, hdv2, hvv⟩ := dictEq_src_binding hd hs heq hsv
    rw [hdv] at hdv2
    injection hdv2 with e2
    subst e2
    have hdveq := mapData_eq hmd
    have hsveq := mapData_eq hms
    have hinner_eq : dictEq des ses = true := by
      rw [hdveq, hsveq] at hvv
      rw [valEq] at hvv
      rw [dictEq]
      exact hvv
    have hvd : validDict des = true := by
      rw [validDict, Bool.and_eq_true] at hd
      exact validV_dict (hdveq ▸ validE_lookup hd.2 hdv)
    have hvs : validDict ses = true := by
      rw [validDict, Bool.and_eq_true] at hs
      exact validV_dict (hsveq ▸ validE_lookup hs.2 hsv)
    obtain ⟨t2, ht2, _⟩ := ih1 hvd hvs hinner_eq
    rw [hrec] at ht2
    injection ht2 with e1 e2
    cases e1
  · intro dst src k c sv hsv dv hdv heq2 hnotmap hd hs heq _
    have hnm : mapData dv = none ∨ mapData sv = none := by
      cases hmd : mapData dv with
      | none => exact Or.inl rfl
      | some p =>
          cases hms : mapData sv with
          | none => exact Or.inr rfl
          | some q =>
              obtain ⟨f1, i1, e1⟩ := p
              obtain ⟨f2, i2, e2⟩ := q
              exact (hnotmap f1 i1 e1 f2 i2 e2 hmd hms).elim
    exact ⟨[], mergeEntry_pass hsv hdv hnm heq2, rfl⟩
  · intro dst src k c sv hsv dv hdv hneq h hceq hnotmap hd hs heq _
    obtain ⟨dv2, hdv2, hvv⟩ := dictEq_src_binding hd hs heq hsv
    rw [hdv] at hdv2
    injection hdv2 with e2
    subst e2
    exact absurd hvv hneq
  · intro dst src k c sv hsv dv hdv hneq s hceq hnotmap hd hs heq _
    obtain ⟨dv2, hdv2, hvv⟩ := dictEq_src_binding hd hs heq hsv
    rw [hdv] at hdv2
    injection hdv2 with e2
    subst e2
    exact absurd hvv hneq

/-! Evaluation of the individual handlers at a bound key, and inversion of a
successful loop step. -/

theorem handle_replace_eval {dst src : Entries} {k : String} {c : Nat} {sv : Value}
    (hsv : lookupVal k src = some sv) :
    _handle_merge_replace dst src k c =
      (.ok (setVal k (deepcopy sv c).1 dst, (deepcopy sv c).2), []) := by
  simp only [_handle_merge_replace, hsv]

theorem handle_typesafe_mismatch {inner : Handler} {dst src : Entries} {k : String}
    {c : Nat} {dv sv : Value}
    (hdv : lookupVal k dst = some dv) (hsv : lookupVal k src = some sv)
    (hne : typeOf dv ≠ typeOf sv) :
    _handle_merge_typesafe inner dst src k c =
      (.error (.typeMismatch k (typeOf dv) (typeOf sv)), [.typeCheck k]) := by
  simp only [_handle_merge_typesafe, hdv, hsv, if_pos hne]

theorem handle_typesafe_match {inner : Handler} {dst src : Entries} {k : String}
    {c : Nat} {dv sv : Value}
    (hdv : lookupVal k dst = some dv) (hsv : lookupVal k src = some sv)
    (he : typeOf dv = typeOf sv) :
    _handle_merge_typesafe inner dst src k c =
      ((inner dst src k c).1, .typeCheck k :: (inner dst src k c).2) := by
  simp only [_handle_merge_typesafe, hdv, hsv, if_neg (not_not_intro he)]

theorem mergeEntry_conflict_callable {h : Handler} {dst src : Entries} {k : String}
    {c : Nat} {sv dv : Value}
    (hsv : lookupVal k src = some sv) (hdv : lookupVal k dst = some dv)
    (hnm : mapData dv = none ∨ mapData sv = none) (heq : valEq dv sv = false) :
    mergeEntry (.callable h) dst src k c =
      ((h dst src k c).1, .handler k :: (h dst src k c).2) := by
  rw [mergeEntry_conflict hsv hdv hnm heq]

theorem mergeEntry_conflict_enum {s : Strategy} {dst src : Entries} {k : String}
    {c : Nat} {sv dv : Value}
    (hsv : lookupVal k src = some sv) (hdv : lookupVal k dst = some dv)
    (hnm : mapData dv = none ∨ mapData sv = none) (heq : valEq dv sv = false) :
    mergeEntry (.enumMember s) dst src k c = (.error .notCallable, [.handler k]) := by
  rw [mergeEntry_conflict hsv hdv hnm heq]

theorem mergeLoop_cons_ok_inv {hc : Callee} {dst src : Entries} {k : String}
    {ks : List String} {c : Nat} {res : Entries} {c2 : Nat} {t : List Event}
    (h : mergeLoop hc dst src (k :: ks) c = (.ok (res, c2), t)) :
    ∃ d2 c3 t1 t2, mergeEntry hc dst src k c = (.ok (d2, c3), t1) ∧
      mergeLoop hc d2 src ks c3 = (.ok (res, c2), t2) ∧ t = t1 ++ t2 := by
  rcases hentry : mergeEntry hc dst src k c with ⟨r1, t1⟩
  rcases r1 with e | p
  · rw [mergeLoop_cons_err hentry] at h
    injection h with e1 e2
    cases e1
  · obtain ⟨d2, c3⟩ := p
    rw [mergeLoop_cons_ok hentry] at h
    rcases hr : mergeLoop hc d2 src ks c3 with ⟨r2, t2⟩
    rw [hr] at h
    injection h with e1 e2
    rcases r2 with e3 | p2
    · cases e1
    · obtain ⟨res2, c4⟩ := p2
      injection e1 with e1
      injection e1 with e4 e5
      subst e4; subst e5; subst e2
      exact ⟨d2, c3, t1, t2, rfl, hr, rfl⟩

/-! Under the REPLACE strategy, for a key of the source: if the key is absent
from the destination, the final destination binds it to a deep copy of the
source value; if it is present with an unequal, not-both-Mapping value, the
final destination also binds it to a deep copy of the source value. -/

theorem mergeLoop_replace_key {src : Entries} :
    ∀ {ks : List String}, ks.Nodup → (∀ k2 ∈ ks, k2 ∈ keysList src) →
    ∀ {dst : Entries} {c : Nat} {res : Entries} {c2 : Nat} {t : List Event},
      mergeLoop (.callable _handle_merge_replace) dst src ks c = (.ok (res, c2), t) →
    ∀ {k : String} {sv : Value}, k ∈ ks → lookupVal k src = some sv →
      ((lookupVal k dst = none → ∃ c1, lookupVal k res = some (deepcopy sv c1).1) ∧
       (∀ dv, lookupVal k dst = some dv →
         (mapData dv = none ∨ mapData sv = none) → valEq dv sv = false →
         ∃ c1, lookupVal k res = some (deepcopy sv c1).1)) := by
  have hspec : ∀ h, (Callee.callable _handle_merge_replace) = .callable h →
      HandlerSpec h (fun _ => False) := by
    intro h hh
    injection hh with hh
    rw [← hh]
    exact handlerSpec_replace
  intro ks
  induction ks with
  | nil => intro _ _ dst c res c2 t _ k sv hk; simp at hk
  | cons k0 ks ih =>
      intro hnd hsub dst c res c2 t hloop k sv hk hsv
      obtain ⟨d2, c3, t1, t2, hentry, hrest, ht⟩ := mergeLoop_cons_ok_inv hloop
      have hnd2 : ks.Nodup := (List.nodup_cons.mp hnd).2
      have hk0 : k0 ∉ ks := (List.nodup_cons.mp hnd).1
      have hsub2 : ∀ k2 ∈ ks, k2 ∈ keysList src := fun k2 h2 =>
        hsub k2 (List.mem_cons_of_mem _ h2)
      rcases List.mem_cons.mp hk with rfl | hkks
      · -- k is the key processed by this step
        have hframe : ∀ k2, k2 ∉ ks → lookupVal k2 res = lookupVal k2 d2 :=
          (((deepmerge_master _ _ hspec).2.1 d2 src ks c3 hsub2).1 res c2 t2 hrest).2.2
        have hres_d2 : lookupVal k res = lookupVal k d2 := hframe k hk0
        constructor
        · intro hnone
          rw [mergeEntry_insert hsv hnone] at hentry
          injection hentry with e1 e2
          injection e1 with e1
          injection e1 with e3 e4
          refine ⟨c, ?_⟩
          rw [hres_d2, ← e3]
          exact lookup_setVal_self
        · intro dv hdv hnm hne
          rw [mergeEntry_conflict_callable hsv hdv hnm hne] at hentry
          simp only [handle_replace_eval hsv] at hentry
          injection hentry with e1 e2
          injection e1 with e1
          injection e1 with e3 e4
          refine ⟨c, ?_⟩
          rw [hres_d2, ← e3]
          exact lookup_setVal_self
      · -- k is processed later; this step does not touch it
        have hk0ne : k ≠ k0 := by
          rintro rfl
          exact hk0 hkks
        have hent_frame : lookupVal k d2 = lookupVal k dst :=
          (((deepmerge_master _ _ hspec).2.2 dst src k0 c
              (hsub k0 (List.mem_cons_self _ _))).1 d2 c3 t1 hentry).2.2 k hk0ne
        have := ih hnd2 hsub2 hrest hkks hsv
        constructor
        · intro hnone
          exact this.1 (by rw [hent_frame]; exact hnone)
        · intro dv hdv hnm hne
          exact this.2 dv (by rw [hent_frame]; exact hdv) hnm hne

/-! Under a TYPESAFE strategy, a shared key with unequal, not-both-Mapping
values of different concrete types forces the whole loop to raise. -/

theorem mergeLoop_typesafe_raises {inner : Handler}
    (hspec : HandlerSpec (_handle_merge_typesafe inner)
      (fun e => isTypeMismatch e = true)) {src : Entries} :
    ∀ {ks : List String}, ks.Nodup → (∀ k2 ∈ ks, k2 ∈ keysList src) →
    ∀ {dst : Entries} {c : Nat} {k : String} {dv sv : Value},
      k ∈ ks → lookupVal k src = some sv → lookupVal k dst = some dv →
      (mapData dv = none ∨ mapData sv = none) → valEq dv sv = false →
      typeOf dv ≠ typeOf sv →
    ∀ res c2 t,
      mergeLoop (.callable (_handle_merge_typesafe inner)) dst src ks c ≠
        (.ok (res, c2), t) := by
  have hspec2 : ∀ h, (Callee.callable (_handle_merge_typesafe inner)) = .callable h →
      HandlerSpec h (fun e => isTypeMismatch e = true) := by
    intro h hh
    injection hh with hh
    rw [← hh]
    exact hspec
  intro ks
  induction ks with
  | nil => intro _ _ dst c k dv sv hk; simp at hk
  | cons k0 ks ih =>
      intro hnd hsub dst c k dv sv hk hsv hdv hnm hne htne res c2 t hloop
      obtain ⟨d2, c3, t1, t2, hentry, hrest, _⟩ := mergeLoop_cons_ok_inv hloop
      have hnd2 : ks.Nodup := (List.nodup_cons.mp hnd).2
      have hk0 : k0 ∉ ks := (List.nodup_cons.mp hnd).1
      have hsub2 : ∀ k2 ∈ ks, k2 ∈ keysList src := fun k2 h2 =>
        hsub k2 (List.mem_cons_of_mem _ h2)
      rcases List.mem_cons.mp hk with rfl | hkks
      · rw [mergeEntry_conflict_callable hsv hdv hnm hne] at hentry
        simp only [handle_typesafe_mismatch hdv hsv htne] at hentry
        simp at hentry
      · have hk0ne : k ≠ k0 := by
          rintro rfl
          exact hk0 hkks
        have hent_frame : lookupVal k d2 = lookupVal k dst :=
          (((deepmerge_master _ _ hspec2).2.2 dst src k0 c
              (hsub k0 (List.mem_cons_self _ _))).1 d2 c3 t1 hentry).2.2 k hk0ne
        exact ih hnd2 hsub2 hkks hsv (by rw [hent_frame]; exact hdv) hnm hne htne
          res c2 t2 hrest

/-! Reflexivity of Python `==` on valid values, and the specification of
`set.update`. -/

theorem sizeOf_lt_of_mem {x : Value} :
    ∀ {xs : List Value}, x ∈ xs → sizeOf x < sizeOf xs := by
  intro xs
  induction xs with
  | nil => intro h; simp at h
  | cons y ys ih =>
      intro h
      rcases List.mem_cons.mp h with rfl | h
      · simp only [List.cons.sizeOf_spec]; omega
      · have := ih h
        simp only [List.cons.sizeOf_spec]; omega

theorem sizeOf_lt_of_memE {k : String} {v : Value} :
    ∀ {es : Entries}, (k, v) ∈ es → sizeOf v < sizeOf es := by
  intro es
  induction es with
  | nil => intro h; simp at h
  | cons p es ih =>
      intro h
      rcases List.mem_cons.mp h with heq | h
      · obtain ⟨k2, v2⟩ := p
        injection heq with e1 e2
        subst e2
        simp only [List.cons.sizeOf_spec, Prod.mk.sizeOf_spec]; omega
      · have := ih h
        simp only [List.cons.sizeOf_spec]; omega

theorem listEq_refl_of :
    ∀ {xs : List Value}, (∀ x ∈ xs, valEq x x = true) → listEq xs xs = true := by
  intro xs
  induction xs with
  | nil => intro _; rw [listEq]
  | cons x xs ih =>
      intro h
      rw [listEq]
      simp only [Bool.and_eq_true]
      exact ⟨h x (List.mem_cons_self _ _), ih fun y hy => h y (List.mem_cons_of_mem _ hy)⟩

theorem memBy_of_refl_mem {x : Value} (hx : valEq x x = true) :
    ∀ {ys : List Value}, x ∈ ys → memBy x ys = true := by
  intro ys
  induction ys with
  | nil => intro h; simp at h
  | cons y ys ih =>
      intro h
      rw [memBy]
      rcases List.mem_cons.mp h with rfl | h
      · simp [hx]
      · simp [ih h]

theorem subsetBy_of_forall :
    ∀ {xs ys : List Value}, (∀ x ∈ xs, memBy x ys = true) → subsetBy xs ys = true := by
  intro xs
  induction xs with
  | nil => intro ys _; rw [subsetBy]
  | cons x xs ih =>
      intro ys h
      rw [subsetBy]
      simp only [Bool.and_eq_true]
      exact ⟨h x (List.mem_cons_self _ _), ih fun y hy => h y (List.mem_cons_of_mem _ hy)⟩

theorem validL_mem {x : Value} :
    ∀ {xs : List Value}, validL xs = true → x ∈ xs → validV x = true := by
  intro xs
  induction xs with
  | nil => intro _ h; simp at h
  | cons y ys ih =>
      intro hv h
      rw [validL, Bool.and_eq_true] at hv
      rcases List.mem_cons.mp h with rfl | h
      · exact hv.1
      · exact ih hv.2 h

theorem valEq_refl : ∀ (v : Value), validV v = true → valEq v v = true := by
  have main : ∀ (n : Nat) (v : Value), sizeOf v ≤ n → validV v = true → valEq v v = true := by
    intro n
    induction n with
    | zero =>
        intro v hv
        cases v <;> simp at hv
    | succ n ih =>
        intro v hv hval
        cases v with
        | vint a => rw [valEq]; simp
        | vbool b => rw [valEq]; simp
        | vstr s => rw [valEq]; simp
        | vmap f i es =>
            rw [valEq]
            simp only [Bool.and_eq_true, beq_iff_eq]
            rw [validV, Bool.and_eq_true] at hval
            refine ⟨trivial, entriesSub_of_forall ?_⟩
            intro p hp
            obtain ⟨k, v2⟩ := p
            refine ⟨v2, lookup_of_mem_nodup hval.1 hp, ?_⟩
            refine ih v2 ?_ ?_
            · have h1 := sizeOf_lt_of_memE hp
              have h2 : sizeOf es < sizeOf (Value.vmap f i es) := by
                simp only [Value.vmap.sizeOf_spec]; omega
              omega
            · exact validE_lookup hval.2 (lookup_of_mem_nodup hval.1 hp)
        | vlist i xs =>
            rw [valEq]
            rw [validV] at hval
            refine listEq_refl_of ?_
            intro x hx
            refine ih x ?_ ?_
            · have h1 := sizeOf_lt_of_mem hx
              have h2 : sizeOf xs < sizeOf (Value.vlist i xs) := by
                simp only [Value.vlist.sizeOf_spec]; omega
              omega
            · exact validL_mem hval hx
        | vset i xs =>
            rw [valEq]
            simp only [Bool.and_eq_true]
            rw [validV] at hval
            have hall : ∀ x ∈ xs, valEq x x = true := by
              intro x hx
              refine ih x ?_ ?_
              · have h1 := sizeOf_lt_of_mem hx
                have h2 : sizeOf xs < sizeOf (Value.vset i xs) := by
                  simp only [Value.vset.sizeOf_spec]; omega
                omega
              · exact validL_mem hval hx
            have : subsetBy xs xs = true :=
              subsetBy_of_forall fun x hx => memBy_of_refl_mem (hall x hx) hx
            exact ⟨this, this⟩
        | vtup xs =>
            rw [valEq]
            rw [validV] at hval
            refine listEq_refl_of ?_
            intro x hx
            refine ih x ?_ ?_
            · have h1 := sizeOf_lt_of_mem hx
              have h2 : sizeOf xs < sizeOf (Value.vtup xs) := by
                simp only [Value.vtup.sizeOf_spec]; omega
              omega
            · exact validL_mem hval hx
  intro v
  exact main (sizeOf v) v (le_refl _)

theorem memBy_append {x : Value} :
    ∀ {a b : List Value}, memBy x (a ++ b) = (memBy x a || memBy x b) := by
  intro a
  induction a with
  | nil => intro b; rw [memBy.eq_def]; cases b <;> simp [memBy]
  | cons y a ih =>
      intro b
      rw [List.cons_append, memBy, memBy, ih]
      rw [Bool.or_assoc]

theorem setUpdate_decomp :
    ∀ {b a : List Value}, ∃ extra, setUpdate a b = a ++ extra ∧ ∀ x ∈ extra, x ∈ b := by
  intro b
  induction b with
  | nil =>
      intro a
      exact ⟨[], by rw [setUpdate, List.append_nil], by intro x hx; simp at hx⟩
  | cons e b ih =>
      intro a
      rw [setUpdate]
      by_cases hm : memBy e a = true
      · rw [if_pos hm]
        obtain ⟨extra, h1, h2⟩ := ih
        exact ⟨extra, h1, fun x hx => List.mem_cons_of_mem _ (h2 x hx)⟩
      · rw [if_neg hm]
        obtain ⟨extra, h1, h2⟩ := ih (a := a ++ [e])
        refine ⟨e :: extra, ?_, ?_⟩
        · rw [h1, List.append_assoc]
          rfl
        · intro x hx
          rcases List.mem_cons.mp hx with rfl | hx
          · exact List.mem_cons_self _ _
          · exact List.mem_cons_of_mem _ (h2 x hx)

theorem setUpdate_mem :
    ∀ {b a : List Value}, (∀ x ∈ b, valEq x x = true) →
      ∀ x ∈ b, memBy x (setUpdate a b) = true := by
  intro b
  induction b with
  | nil => intro a _ x hx; simp at hx
  | cons e b ih =>
      intro a hrefl x hx
      rw [setUpdate]
      by_cases hm : memBy e a = true
      · rw [if_pos hm]
        rcases List.mem_cons.mp hx with rfl | hx
        · obtain ⟨extra, h1, _⟩ := setUpdate_decomp (b := b) (a := a)
          rw [h1, memBy_append, hm]
          rfl
        · exact ih (fun y hy => hrefl y (List.mem_cons_of_mem _ hy)) x hx
      · rw [if_neg hm]
        rcases List.mem_cons.mp hx with rfl | hx
        · obtain ⟨extra, h1, _⟩ := setUpdate_decomp (b := b) (a := a ++ [x])
          rw [h1, memBy_append, memBy_append]
          have : memBy x [x] = true := by
            rw [memBy]
            simp [hrefl x (List.mem_cons_self _ _)]
          simp [this]
        · exact ih (fun y hy => hrefl y (List.mem_cons_of_mem _ hy)) x hx

/-! Deep copies of valid values are valid (and dict copies keep the keys). -/

theorem deepcopy_valid_all :
    (∀ (v : Value) (c : Nat), validV v = true → validV (deepcopy v c).1 = true) ∧
    (∀ (xs : List Value) (c : Nat), validL xs = true → validL (deepcopyL xs c).1 = true) ∧
    (∀ (es : Entries) (c : Nat), validE es = true →
      validE (deepcopyE es c).1 = true ∧ keysList (deepcopyE es c).1 = keysList es) := by
  refine deepcopy.mutual_induct
    (fun v c => validV v = true → validV (deepcopy v c).1 = true)
    (fun xs c => validL xs = true → validL (deepcopyL xs c).1 = true)
    (fun es c => validE es = true →
      validE (deepcopyE es c).1 = true ∧ keysList (deepcopyE es c).1 = keysList es)
    ?_ ?_ ?_ ?_ ?_ ?_ ?_ ?_ ?_ ?_ ?_
  · intro n c _; rw [deepcopy, validV]
  · intro b c _; rw [deepcopy, validV]
  · intro s c _; rw [deepcopy, validV]
  · intro f a es c ih hv
    rw [validV, Bool.and_eq_true] at hv
    obtain ⟨h1, h2⟩ := ih hv.2
    rw [deepcopy, validV]
    simp only [Bool.and_eq_true]
    exact ⟨by rw [h2]; exact hv.1, h1⟩
  · intro a xs c ih hv
    rw [validV] at hv
    rw [deepcopy, validV]
    exact ih hv
  · intro a xs c ih hv
    rw [validV] at hv
    rw [deepcopy, validV]
    exact ih hv
  · intro xs c ih hv
    rw [validV] at hv
    rw [deepcopy, validV]
    exact ih hv
  · intro c _
    exact ⟨rfl, rfl⟩
  · intro k v es c r ih1 ih2 hv
    have hr : r = deepcopy v c := rfl
    rw [validE, Bool.and_eq_true] at hv
    have h1 := ih1 hv.1
    obtain ⟨h2, h3⟩ := ih2 hv.2
    rw [hr] at h2 h3
    constructor
    · rw [deepcopyE, validE]
      simp only [Bool.and_eq_true]
      exact ⟨h1, h2⟩
    · rw [deepcopyE, keysList]
      rw [h3]
      rw [keysList]
  · intro c _
    rfl
  · intro x xs c r ih1 ih2 hv
    have hr : r = deepcopy x c := rfl
    rw [validL, Bool.and_eq_true] at hv
    have h1 := ih1 hv.1
    have h2 := ih2 hv.2
    rw [hr] at h2
    rw [deepcopyL, validL]
    simp only [Bool.and_eq_true]
    exact ⟨h1, h2⟩

/-! Merging an `==`-equal source value over a key leaves the destination
untouched, raises nothing and dispatches no handler. -/

theorem mergeEntry_equal_noop {hc : Callee} {dst src : Entries} {k : String} {c : Nat}
    {dv sv : Value}
    (hdv : lookupVal k dst = some dv) (hsv : lookupVal k src = some sv)
    (heq : valEq dv sv = true) (hvd : validV dv = true) (hvs : validV sv = true) :
    ∃ t, mergeEntry hc dst src k c = (.ok (dst, c), t) ∧ t.all eventIsRecurse = true := by
  cases hmd : mapData dv with
  | none => exact ⟨[], mergeEntry_pass hsv hdv (Or.inl hmd) heq, rfl⟩
  | some p =>
      cases hms : mapData sv with
      | none => exact ⟨[], mergeEntry_pass hsv hdv (Or.inr hms) heq, rfl⟩
      | some q =>
          obtain ⟨f, i, des⟩ := p
          obtain ⟨sf, si, ses⟩ := q
          have hdveq := mapData_eq hmd
          have hsveq := mapData_eq hms
          have hde : dictEq des ses = true := by
            rw [hdveq, hsveq] at heq
            rw [valEq] at heq
            rw [dictEq]
            exact heq
          have hvdd : validDict des = true := validV_dict (hdveq ▸ hvd)
          have hvss : validDict ses = true := validV_dict (hsveq ▸ hvs)
          obtain ⟨t2, ht2, hall2⟩ := (deepmerge_noop hc).1 des ses c hvdd hvss hde
          have hval : mergeEntry hc dst src k c =
              (.ok (setVal k (Value.vmap f i des) dst, c), .recurse k :: t2) := by
            rw [mergeEntry_recurse hsv hdv hmd hms, ht2]
          have hset : setVal k (Value.vmap f i des) dst = dst := by
            rw [← hdveq]
            exact setVal_lookup_self hdv
          rw [hset] at hval
          refine ⟨.recurse k :: t2, hval, ?_⟩
          simp only [List.all_cons, Bool.and_eq_true]
          exact ⟨rfl, hall2⟩

/-! Inversion of a successful or failing single-source merge. -/

theorem merge_single_ok_inv {strategy : StrategyArg} {dst src : Entries} {c : Nat}
    {res : Entries} {c2 : Nat}
    (h : merge dst [src] strategy c = .ok (res, c2)) :
    ∃ t, _deepmerge (_handle_merge_get strategy) dst src c = (.ok (res, c2), t) := by
  rw [merge, mergeTraced] at h
  rcases hd : _deepmerge (_handle_merge_get strategy) dst src c with ⟨r1, t1⟩
  rcases r1 with e | p
  · rw [mergeSources_cons_err hd] at h
    cases h
  · obtain ⟨d2, c3⟩ := p
    rw [mergeSources_cons_ok hd] at h
    rw [mergeSources_nil] at h
    injection h with e1
    injection e1 with e1 e2
    subst e1; subst e2
    exact ⟨t1, rfl⟩

theorem merge_single_err_inv {strategy : StrategyArg} {dst src : Entries} {c : Nat}
    {e : MergeError}
    (h : merge dst [src] strategy c = .error e) :
    ∃ t, _deepmerge (_handle_merge_get strategy) dst src c = (.error e, t) := by
  rw [merge, mergeTraced] at h
  rcases hd : _deepmerge (_handle_merge_get strategy) dst src c with ⟨r1, t1⟩
  rcases r1 with e2 | p
  · rw [mergeSources_cons_err hd] at h
    injection h with e1
    subst e1
    exact ⟨t1, rfl⟩
  · obtain ⟨d2, c3⟩ := p
    rw [mergeSources_cons_ok hd] at h
    rw [mergeSources_nil] at h
    cases h

/-! Claim theorems. -/

/-- C1: the claim says an unknown strategy falls back silently to REPLACE
behavior without raising.  The code disagrees: `_handle_merge.get(strategy,
Strategy.REPLACE)` returns the enum member `Strategy.REPLACE` itself for an
unregistered strategy, and calling it raises `TypeError: not callable` at the
first conflicting key, while the same merge under the registered REPLACE
strategy succeeds and replaces the value.  This theorem evaluates the code at
such a failing input. -/
theorem C1_unknown_strategy_raises_not_replaces :
    merge [("a", .vint 1)] [[("a", .vint 2)]] .invalid 0 = .error .notCallable ∧
    merge [("a", .vint 1)] [[("a", .vint 2)]] (.member .REPLACE) 0 =
      .ok ([("a", .vint 2)], 0) := by
  constructor <;>
    simp [merge, mergeTraced, mergeSources, _deepmerge, mergeLoop, mergeEntry,
      keysList, lookupVal, setVal, valEq, deepcopy, _handle_merge_get,
      _handle_merge, _handle_merge_replace, mapData]

/-- C5: sources are folded into the destination strictly left to right:
merging `[s1, s2]` equals merging `s1` first and then merging `s2` into the
updated destination, and in general one source is split off the front of the
list the same way, for every strategy (registered or not). -/
theorem C5_left_to_right_fold :
    (∀ (strategy : StrategyArg) (dst s1 s2 : Entries) (c : Nat),
      merge dst [s1, s2] strategy c =
        (match merge dst [s1] strategy c with
         | .ok (d1, c1) => merge d1 [s2] strategy c1
         | .error e => .error e)) ∧
    (∀ (strategy : StrategyArg) (dst s1 : Entries) (rest : List Entries) (c : Nat),
      merge dst (s1 :: rest) strategy c =
        (match merge dst [s1] strategy c with
         | .ok (d1, c1) => merge d1 rest strategy c1
         | .error e => .error e)) := by
  have main : ∀ (strategy : StrategyArg) (dst s1 : Entries) (rest : List Entries) (c : Nat),
      merge dst (s1 :: rest) strategy c =
        (match merge dst [s1] strategy c with
         | .ok (d1, c1) => merge d1 rest strategy c1
         | .error e => .error e) := by
    intro strategy dst s1 rest c
    rcases hd : _deepmerge (_handle_merge_get strategy) dst s1 c with ⟨r1, t1⟩
    rcases r1 with e | p
    · have h1 : merge dst (s1 :: rest) strategy c = .error e := by
        rw [merge, mergeTraced, mergeSources_cons_err hd]
      have h2 : merge dst [s1] strategy c = .error e := by
        rw [merge, mergeTraced, mergeSources_cons_err hd]
      rw [h1, h2]
    · obtain ⟨d1, c1⟩ := p
      have h1 : merge dst (s1 :: rest) strategy c = merge d1 rest strategy c1 := by
        rw [merge, mergeTraced, mergeSources_cons_ok hd, merge, mergeTraced]
      have h2 : merge dst [s1] strategy c = .ok (d1, c1) := by
        rw [merge, mergeTraced, mergeSources_cons_ok hd, mergeSources_nil]
      rw [h1, h2]
  exact ⟨fun strategy dst s1 s2 c => main strategy dst s1 [s2] c, main⟩

/-- C6: `merge(D)` with zero sources returns the destination unchanged (same
entries, same state, no events), for every strategy.  In this state-passing
embedding the returned entries are by construction the final state of the
very destination object that was passed in, so the "same object reference"
clause holds at every arity by the shape of `merge`. -/
theorem C6_zero_sources_identity :
    ∀ (dst : Entries) (strategy : StrategyArg) (c : Nat),
      merge dst [] strategy c = .ok (dst, c) ∧
      mergeTraced dst [] strategy c = (.ok (dst, c), []) := by
  intro dst strategy c
  exact ⟨rfl, rfl⟩

/-- C9: TYPESAFE is an alias of TYPESAFE_REPLACE: both dispatch to the very
same handler, so merging is identical in result, raised error and even the
ghost trace, for every destination, sources and counter; and with matching
concrete types REPLACE behavior is applied, as on the `[1]` / `[2]`
example. -/
theorem C9_typesafe_is_typesafe_replace :
    (∀ (dst : Entries) (srcs : List Entries) (c : Nat),
      merge dst srcs (.member .TYPESAFE) c = merge dst srcs (.member .TYPESAFE_REPLACE) c) ∧
    (∀ (dst : Entries) (srcs : List Entries) (c : Nat),
      mergeTraced dst srcs (.member .TYPESAFE) c =
        mergeTraced dst srcs (.member .TYPESAFE_REPLACE) c) ∧
    merge [("k", .vlist 0 [.vint 1])] [[("k", .vlist 1 [.vint 2])]]
      (.member .TYPESAFE_REPLACE) 2 = .ok ([("k", .vlist 2 [.vint 2])], 3) := by
  refine ⟨fun dst srcs c => rfl, fun dst srcs c => rfl, ?_⟩
  simp [merge, mergeTraced, mergeSources, _deepmerge, mergeLoop, mergeEntry,
    keysList, lookupVal, setVal, valEq, listEq, deepcopy, deepcopyL,
    _handle_merge_get, _handle_merge, _handle_merge_typesafe,
    _handle_merge_replace, mapData, typeOf]

/-- C4: REPLACE semantics.  For any key of a (valid) source dict: if the key
is absent from the destination, the merged destination binds it to a deep
copy of the source value; if it is present with an unequal value where not
both sides are Mappings, the merged destination also binds it to a deep copy
of the source value; and a REPLACE merge always succeeds.  The claim's
concrete example evaluates as stated. -/
theorem C4_replace_semantics :
    (∀ (dst src : Entries) (c : Nat) (k : String) (sv : Value),
      nodupKeys (keysList src) = true → (k, sv) ∈ src →
      ∃ res c2, merge dst [src] (.member .REPLACE) c = .ok (res, c2) ∧
        (lookupVal k dst = none → ∃ c1, lookupVal k res = some (deepcopy sv c1).1) ∧
        (∀ dv, lookupVal k dst = some dv →
          (mapData dv = none ∨ mapData sv = none) → valEq dv sv = false →
          ∃ c1, lookupVal k res = some (deepcopy sv c1).1)) ∧
    merge [("a", .vint 1), ("b", .vint 2)] [[("a", .vint 9), ("c", .vint 3)]]
      (.member .REPLACE) 0 = .ok ([("a", .vint 9), ("b", .vint 2), ("c", .vint 3)], 0) := by
  constructor
  · intro dst src c k sv hnd hmem
    have hcal : _handle_merge_get (.member .REPLACE) = .callable _handle_merge_replace := rfl
    have hspec : ∀ h, (Callee.callable _handle_merge_replace) = .callable h →
        HandlerSpec h (fun _ => False) := by
      intro h hh
      injection hh with hh
      rw [← hh]
      exact handlerSpec_replace
    obtain ⟨res, c2, t, hms⟩ :=
      @mergeSources_total (.callable _handle_merge_replace) _handle_merge_replace
        rfl hspec [src] dst c
    have hmerge : merge dst [src] (.member .REPLACE) c = .ok (res, c2) := by
      rw [merge, mergeTraced, hcal, hms]
    obtain ⟨t2, hdeep⟩ := merge_single_ok_inv hmerge
    rw [hcal] at hdeep
    rw [_deepmerge_eq] at hdeep
    have hchar := mergeLoop_replace_key (nodupKeys_iff.mp hnd) (fun k2 h2 => h2) hdeep
      (mem_keysList.mpr ⟨sv, hmem⟩) (lookup_of_mem_nodup hnd hmem)
    exact ⟨res, c2, hmerge, hchar.1, hchar.2⟩
  · simp [merge, mergeTraced, mergeSources, _deepmerge, mergeLoop, mergeEntry,
      keysList, lookupVal, setVal, valEq, deepcopy, _handle_merge_get,
      _handle_merge, _handle_merge_replace, mapData]

/-- C4 witness: the REPLACE characterization applied at the claim's own
example, for the conflicting key "a". -/
theorem C4_replace_semantics_witness :
    nodupKeys (keysList [("a", Value.vint 9), ("c", Value.vint 3)]) = true ∧
    ("a", Value.vint 9) ∈ ([("a", Value.vint 9), ("c", Value.vint 3)] : Entries) ∧
    (∃ res c2, merge [("a", Value.vint 1), ("b", Value.vint 2)]
        [[("a", Value.vint 9), ("c", Value.vint 3)]] (.member .REPLACE) 0 = .ok (res, c2) ∧
      (lookupVal "a" [("a", Value.vint 1), ("b", Value.vint 2)] = none →
        ∃ c1, lookupVal "a" res = some (deepcopy (Value.vint 9) c1).1) ∧
      (∀ dv, lookupVal "a" [("a", Value.vint 1), ("b", Value.vint 2)] = some dv →
        (mapData dv = none ∨ mapData (Value.vint 9) = none) →
        valEq dv (Value.vint 9) = false →
        ∃ c1, lookupVal "a" res = some (deepcopy (Value.vint 9) c1).1)) :=
  ⟨by simp [nodupKeys, keysList], by simp,
    C4_replace_semantics.1 [("a", Value.vint 1), ("b", Value.vint 2)]
      [("a", Value.vint 9), ("c", Value.vint 3)] 0 "a" (Value.vint 9)
      (by simp [nodupKeys, keysList]) (by simp)⟩

/-- C2: the TYPESAFE family raises exactly the type-mismatch TypeError.
First conjunct: at a shared key with unequal, not-both-Mapping values whose
concrete types differ, the step raises an error carrying that key and the two
concrete types (its rendered message names all three).  Second conjunct: for
every registered strategy, any error a merge raises is such a type-mismatch
error.  Third conjunct: under the three TYPESAFE strategies such a key makes
the whole (single-source) merge raise a type-mismatch error. -/
theorem C2_typemismatch_is_the_only_error :
    (∀ (inner : Handler) (dst src : Entries) (k : String) (c : Nat) (dv sv : Value),
      lookupVal k dst = some dv → lookupVal k src = some sv →
      (mapData dv = none ∨ mapData sv = none) → valEq dv sv = false →
      typeOf dv ≠ typeOf sv →
      mergeEntry (.callable (_handle_merge_typesafe inner)) dst src k c =
        (.error (.typeMismatch k (typeOf dv) (typeOf sv)), [.handler k, .typeCheck k]) ∧
      errorMessage (.typeMismatch k (typeOf dv) (typeOf sv)) =
        "destination type: " ++ typeName (typeOf dv) ++ " differs from source type: " ++
          typeName (typeOf sv) ++ " for key: " ++ k) ∧
    (∀ (s : Strategy) (dst : Entries) (srcs : List Entries) (c : Nat) (e : MergeError),
      merge dst srcs (.member s) c = .error e → ∃ k t1 t2, e = .typeMismatch k t1 t2) ∧
    (∀ (s : Strategy) (dst src : Entries) (c : Nat) (k : String) (dv sv : Value),
      (s = .TYPESAFE ∨ s = .TYPESAFE_REPLACE ∨ s = .TYPESAFE_ADDITIVE) →
      nodupKeys (keysList src) = true →
      lookupVal k dst = some dv → lookupVal k src = some sv →
      (mapData dv = none ∨ mapData sv = none) → valEq dv sv = false →
      typeOf dv ≠ typeOf sv →
      ∃ k2 t1 t2, merge dst [src] (.member s) c = .error (.typeMismatch k2 t1 t2)) := by
  refine ⟨?_, ?_, ?_⟩
  · intro inner dst src k c dv sv hdv hsv hnm hne htne
    refine ⟨?_, rfl⟩
    rw [mergeEntry_conflict_callable hsv hdv hnm hne]
    rw [handle_typesafe_mismatch hdv hsv htne]
  · intro s dst srcs c e herr
    have hspec : ∀ h, (Callee.callable (_handle_merge s)) = .callable h →
        HandlerSpec h (fun e2 => isTypeMismatch e2 = true) := by
      intro h hh
      injection hh with hh
      rw [← hh]
      exact handlerSpec_typeM s
    rw [merge, mergeTraced] at herr
    rcases hms : mergeSources (_handle_merge_get (.member s)) dst srcs c with ⟨r1, t1⟩
    rw [hms] at herr
    rcases r1 with e2 | p
    · injection herr with e1
      subst e1
      have hms2 : mergeSources (.callable (_handle_merge s)) dst srcs c = (.error e2, t1) := hms
      rcases mergeSources_err hspec hms2 with h | ⟨s2, hs2, _⟩
      · cases e2 with
        | typeMismatch k tt1 tt2 => exact ⟨k, tt1, tt2, rfl⟩
        | notCallable => simp [isTypeMismatch] at h
        | keyError k => simp [isTypeMismatch] at h
      · cases hs2
    · cases herr
  · intro s dst src c k dv sv hs hnd hdv hsv hnm hne htne
    have hinner : ∃ inner, _handle_merge s = _handle_merge_typesafe inner := by
      rcases hs with rfl | rfl | rfl
      · exact ⟨_handle_merge_replace, rfl⟩
      · exact ⟨_handle_merge_replace, rfl⟩
      · exact ⟨_handle_merge_additive, rfl⟩
    obtain ⟨inner, hin⟩ := hinner
    rcases hm : merge dst [src] (.member s) c with e | p
    · obtain ⟨t, hdeep⟩ := merge_single_err_inv hm
      have hspec : ∀ h, (Callee.callable (_handle_merge s)) = .callable h →
          HandlerSpec h (fun e2 => isTypeMismatch e2 = true) := by
        intro h hh
        injection hh with hh
        rw [← hh]
        exact handlerSpec_typeM s
      have hdeep2 : _deepmerge (.callable (_handle_merge s)) dst src c = (.error e, t) := hdeep
      rcases ((deepmerge_master _ _ hspec).1 dst src c).2 e t hdeep2 with h | ⟨s2, hs2, _⟩
      · cases e with
        | typeMismatch k2 tt1 tt2 => exact ⟨k2, tt1, tt2, rfl⟩
        | notCallable => simp [isTypeMismatch] at h
        | keyError k2 => simp [isTypeMismatch] at h
      · cases hs2
    · obtain ⟨res, c2⟩ := p
      obtain ⟨t, hdeep⟩ := merge_single_ok_inv hm
      have hdeep2 : _deepmerge (.callable (_handle_merge_typesafe inner)) dst src c =
          (.ok (res, c2), t) := by
        rw [← hin]
        exact hdeep
      rw [_deepmerge_eq] at hdeep2
      have hts : HandlerSpec (_handle_merge_typesafe inner)
          (fun e2 => isTypeMismatch e2 = true) := by
        rw [← hin]
        exact handlerSpec_typeM s
      exact absurd hdeep2
        (mergeLoop_typesafe_raises hts (nodupKeys_iff.mp hnd) (fun k2 h2 => h2)
          (mem_keysList.mpr ⟨sv, lookupVal_mem hsv⟩) hsv hdv hnm hne htne res c2 t)

/-- C2 witness: the type-mismatch raise at the spec's own example, a list
against a string under TYPESAFE_REPLACE. -/
theorem C2_typemismatch_witness :
    lookupVal "k" [("k", Value.vlist 0 [Value.vint 1])] = some (Value.vlist 0 [Value.vint 1]) ∧
    lookupVal "k" [("k", Value.vstr "s")] = some (Value.vstr "s") ∧
    mergeEntry (.callable (_handle_merge_typesafe _handle_merge_replace))
        [("k", Value.vlist 0 [Value.vint 1])] [("k", Value.vstr "s")] "k" 0 =
      (.error (.typeMismatch "k" .tList .tStr), [.handler "k", .typeCheck "k"]) :=
  ⟨by simp [lookupVal], by simp [lookupVal],
    (C2_typemismatch_is_the_only_error.1 _handle_merge_replace
      [("k", Value.vlist 0 [Value.vint 1])] [("k", Value.vstr "s")] "k" 0
      (Value.vlist 0 [Value.vint 1]) (Value.vstr "s")
      (by simp [lookupVal]) (by simp [lookupVal]) (Or.inr rfl)
      (by simp [valEq]) (by simp [typeOf])).1⟩

/-! Trace shape of the individual `mergeEntry` branches. -/

theorem mergeEntry_recurse_trace {hc : Callee} {dst src : Entries} {k : String}
    {c : Nat} {sv dv : Value} {df sf : Bool} {di si : Nat} {des ses : Entries}
    (hsv : lookupVal k src = some sv) (hdv : lookupVal k dst = some dv)
    (hmd : mapData dv = some (df, di, des)) (hms : mapData sv = some (sf, si, ses)) :
    (mergeEntry hc dst src k c).2 = .recurse k :: (_deepmerge hc des ses c).2 := by
  rcases hr : _deepmerge hc des ses c with ⟨r, t⟩
  rcases r with e | p
  · have hval : mergeEntry hc dst src k c = (.error e, .recurse k :: t) := by
      rw [mergeEntry_recurse hsv hdv hmd hms, hr]
    rw [hval]
  · obtain ⟨d2, c2⟩ := p
    have hval : mergeEntry hc dst src k c =
        (.ok (setVal k (.vmap df di d2) dst, c2), .recurse k :: t) := by
      rw [mergeEntry_recurse hsv hdv hmd hms, hr]
    rw [hval]

theorem mergeEntry_conflict_trace {hc : Callee} {dst src : Entries} {k : String}
    {c : Nat} {sv dv : Value}
    (hsv : lookupVal k src = some sv) (hdv : lookupVal k dst = some dv)
    (hnm : mapData dv = none ∨ mapData sv = none) (heq : valEq dv sv = false) :
    ∃ rest, (mergeEntry hc dst src k c).2 = .handler k :: rest := by
  cases hc with
  | callable h =>
      rw [mergeEntry_conflict_callable hsv hdv hnm heq]
      exact ⟨(h dst src k c).2, rfl⟩
  | enumMember s =>
      rw [mergeEntry_conflict_enum hsv hdv hnm heq]
      exact ⟨[], rfl⟩

/-- C3: the ADDITIVE conflict handler.  Lists: the destination list keeps its
identity and is extended with the deep-copied source elements in order,
duplicates retained (the copies compare `==` pointwise to the source's
elements and carry only fresh identities).  Sets: the destination set keeps
its identity and is updated with the deep-copied source elements — the result
is the destination's elements followed by exactly those copies not already
`==`-present, and every copied element is `==`-present in the result.
Tuples: the key is rebound to a fresh tuple, the concatenation of the
destination tuple and a deep copy of the source tuple.  Anything else falls
back to the REPLACE handler.  The spec's set-union example evaluates as
stated. -/
theorem C3_additive_semantics :
    (∀ (destination source : Entries) (key : String) (c : Nat) (dv sv : Value),
      lookupVal key destination = some dv → lookupVal key source = some sv →
      (∀ di dxs si sxs, dv = .vlist di dxs → sv = .vlist si sxs →
        _handle_merge_additive destination source key c =
          (.ok (setVal key (.vlist di (dxs ++ (deepcopyL sxs (c + 1)).1)) destination,
            (deepcopyL sxs (c + 1)).2), []) ∧
        (validL sxs = true → listEq (deepcopyL sxs (c + 1)).1 sxs = true) ∧
        (∀ i ∈ idsL (deepcopyL sxs (c + 1)).1, c + 1 ≤ i)) ∧
      (∀ di dxs si sxs, dv = .vset di dxs → sv = .vset si sxs →
        _handle_merge_additive destination source key c =
          (.ok (setVal key (.vset di (setUpdate dxs (deepcopyL sxs (c + 1)).1)) destination,
            (deepcopyL sxs (c + 1)).2), []) ∧
        (validL sxs = true → listEq (deepcopyL sxs (c + 1)).1 sxs = true) ∧
        (∃ extra, setUpdate dxs (deepcopyL sxs (c + 1)).1 = dxs ++ extra ∧
          ∀ x ∈ extra, x ∈ (deepcopyL sxs (c + 1)).1) ∧
        (validL sxs = true → ∀ x ∈ (deepcopyL sxs (c + 1)).1,
          memBy x (setUpdate dxs (deepcopyL sxs (c + 1)).1) = true)) ∧
      (∀ dxs sxs, dv = .vtup dxs → sv = .vtup sxs →
        _handle_merge_additive destination source key c =
          (.ok (setVal key (.vtup (dxs ++ (deepcopyL sxs c).1)) destination,
            (deepcopyL sxs c).2), []) ∧
        (validL sxs = true → listEq (deepcopyL sxs c).1 sxs = true)) ∧
      ((∀ di dxs si sxs, ¬(dv = .vlist di dxs ∧ sv = .vlist si sxs)) →
       (∀ di dxs si sxs, ¬(dv = .vset di dxs ∧ sv = .vset si sxs)) →
       (∀ dxs sxs, ¬(dv = .vtup dxs ∧ sv = .vtup sxs)) →
        _handle_merge_additive destination source key c =
          _handle_merge_replace destination source key c)) ∧
    merge [("tags", .vset 0 [.vint 1, .vint 2])] [[("tags", .vset 1 [.vint 2, .vint 3])]]
      (.member .ADDITIVE) 2 =
      .ok ([("tags", .vset 0 [.vint 1, .vint 2, .vint 3])], 3) := by
  constructor
  · intro destination source key c dv sv hdv hsv
    refine ⟨?_, ?_, ?_, ?_⟩
    · rintro di dxs si sxs rfl rfl
      refine ⟨?_, ?_, ?_⟩
      · simp only [_handle_merge_additive, hdv, hsv, deepcopy, elemsOf]
      · intro hval
        exact (deepcopy_valEq_all.2.1 sxs (c + 1) hval).1
      · intro i hi
        exact ((deepcopy_spec_all.2.1 sxs (c + 1)).2 i hi).1
    · rintro di dxs si sxs rfl rfl
      refine ⟨?_, ?_, ?_, ?_⟩
      · simp only [_handle_merge_additive, hdv, hsv, deepcopy, elemsOf]
      · intro hval
        exact (deepcopy_valEq_all.2.1 sxs (c + 1) hval).1
      · exact setUpdate_decomp
      · intro hval
        refine setUpdate_mem ?_
        intro x hx
        exact valEq_refl x
          (validL_mem (deepcopy_valid_all.2.1 sxs (c + 1) hval) hx)
    · rintro dxs sxs rfl rfl
      refine ⟨?_, ?_⟩
      · simp only [_handle_merge_additive, hdv, hsv, deepcopy, elemsOf]
      · intro hval
        exact (deepcopy_valEq_all.2.1 sxs c hval).1
    · intro h1 h2 h3
      simp only [_handle_merge_additive, hdv, hsv]
      split
      · next di dxs si sxs => exact ((h1 di dxs si sxs) ⟨rfl, rfl⟩).elim
      · next di dxs si sxs => exact ((h2 di dxs si sxs) ⟨rfl, rfl⟩).elim
      · next dxs sxs => exact ((h3 dxs sxs) ⟨rfl, rfl⟩).elim
      · rfl
  · simp [merge, mergeTraced, mergeSources, _deepmerge, mergeLoop, mergeEntry,
      keysList, lookupVal, setVal, valEq, subsetBy, memBy, deepcopy, deepcopyL,
      _handle_merge_get, _handle_merge, _handle_merge_additive, mapData,
      elemsOf, setUpdate]

/-- C3 witness: the ADDITIVE list-extension clause applied at the spec's
list-concatenation example. -/
theorem C3_additive_semantics_witness :
    _handle_merge_additive [("items", Value.vlist 0 [Value.vint 1, Value.vint 2])]
        [("items", Value.vlist 1 [Value.vint 3, Value.vint 4])] "items" 2 =
      (.ok ([("items", Value.vlist 0
        [Value.vint 1, Value.vint 2, Value.vint 3, Value.vint 4])], 3), []) :=
  ((C3_additive_semantics.1 [("items", Value.vlist 0 [Value.vint 1, Value.vint 2])]
      [("items", Value.vlist 1 [Value.vint 3, Value.vint 4])] "items" 2
      (Value.vlist 0 [Value.vint 1, Value.vint 2])
      (Value.vlist 1 [Value.vint 3, Value.vint 4])
      (by simp [lookupVal]) (by simp [lookupVal])).1
    0 [Value.vint 1, Value.vint 2] 1 [Value.vint 3, Value.vint 4] rfl rfl).1

/-- C7: non-aliasing.  For every strategy, if a merge succeeds and the
sources' container identities are distinct from the destination's and below
the fresh counter (distinct objects), then no container of the result is a
container of any source: every value taken from a source went through
`deepcopy`, so mutating the sources afterwards cannot change the result.
(The sources themselves are immutable values of the state-passing embedding,
so "sources are left unchanged" holds by construction.) -/
theorem C7_result_never_aliases_sources :
    ∀ (strategy : StrategyArg) (dst : Entries) (srcs : List Entries) (c : Nat)
      (res : Entries) (c2 : Nat),
      merge dst srcs strategy c = .ok (res, c2) →
      (idsSrcs srcs).all (fun i => decide (i < c) && !((idsE dst).contains i)) = true →
      (idsE res).all (fun i => !((idsSrcs srcs).contains i)) = true := by
  intro strategy dst srcs c res c2 hok hfresh
  have hspec : ∀ h, _handle_merge_get strategy = .callable h →
      HandlerSpec h (fun _ => True) := by
    intro h hh
    cases strategy with
    | member s =>
        have he : _handle_merge_get (.member s) = .callable (_handle_merge s) := rfl
        rw [he] at hh
        injection hh with hh
        rw [← hh]
        exact handlerSpec_mono (handlerSpec_typeM s) (fun _ _ => trivial)
    | invalid =>
        have he : _handle_merge_get .invalid = .enumMember .REPLACE := rfl
        rw [he] at hh
        cases hh
  rw [merge, mergeTraced] at hok
  rcases hms : mergeSources (_handle_merge_get strategy) dst srcs c with ⟨r1, t1⟩
  rw [hms] at hok
  rcases r1 with e | p
  · cases hok
  · obtain ⟨res2, c3⟩ := p
    injection hok with e1
    injection e1 with e3 e4
    subst e3; subst e4
    obtain ⟨hc1, hids⟩ := mergeSources_ids hspec hms
    have hfresh2 : ∀ j ∈ idsSrcs srcs, j < c ∧ j ∉ idsE dst := by
      simp only [List.all_eq_true, Bool.and_eq_true, decide_eq_true_eq] at hfresh
      intro j hj
      have hh := hfresh j hj
      refine ⟨hh.1, ?_⟩
      have h2 := hh.2
      simp only [Bool.not_eq_true'] at h2
      simp at h2
      exact h2
    have hgoal : ∀ i ∈ idsE res2, i ∉ idsSrcs srcs := by
      intro i hi hmem
      rcases hids i hi with h | h
      · exact (hfresh2 i hmem).2 h
      · have := (hfresh2 i hmem).1
        omega
    rw [List.all_eq_true]
    intro i hi
    have := hgoal i hi
    simp only [Bool.not_eq_true']
    simp
    exact this

/-- C7 witness: a concrete successful merge whose result shares no container
identity with the source. -/
theorem C7_result_never_aliases_sources_witness :
    (idsSrcs [[("b", Value.vlist 1 [Value.vint 2])]]).all
      (fun i => decide (i < 2) &&
        !((idsE [("a", Value.vlist 0 [Value.vint 1])]).contains i)) = true ∧
    (idsE [("a", Value.vlist 0 [Value.vint 1]), ("b", Value.vlist 2 [Value.vint 2])]).all
      (fun i =>
        !((idsSrcs [[("b", Value.vlist 1 [Value.vint 2])]]).contains i)) = true := by
  constructor
  · simp [idsSrcs, idsE, idsV, idsL]
  · exact C7_result_never_aliases_sources (.member .REPLACE)
      [("a", Value.vlist 0 [Value.vint 1])] [[("b", Value.vlist 1 [Value.vint 2])]] 2
      [("a", Value.vlist 0 [Value.vint 1]), ("b", Value.vlist 2 [Value.vint 2])] 3
      (by simp [merge, mergeTraced, mergeSources, _deepmerge, mergeLoop, mergeEntry,
        keysList, lookupVal, setVal, deepcopy, deepcopyL, _handle_merge_get,
        _handle_merge, mapData])
      (by simp [idsSrcs, idsE, idsV, idsL])

/-- C8 counterexample: the claim says the conflict handler is invoked only
when both values are non-Container; but with destination value a Mapping and
source value a scalar (unequal, not both Mappings) the code does dispatch the
handler — the trace of the merge starts with the handler event for the key
although the destination's value at that key is a Container. -/
theorem C8_counterexample_handler_on_container :
    (mergeTraced [("k", Value.vmap false 0 [("a", Value.vint 1)])] [[("k", Value.vint 5)]]
        (.member .REPLACE) 1).2.head? = some (.handler "k") ∧
    isMapping (Value.vmap false 0 [("a", Value.vint 1)]) = true ∧
    lookupVal "k" [("k", Value.vmap false 0 [("a", Value.vint 1)])] =
      some (Value.vmap false 0 [("a", Value.vint 1)]) := by
  refine ⟨?_, rfl, by simp [lookupVal]⟩
  simp [mergeTraced, mergeSources, _deepmerge, mergeLoop, mergeEntry, keysList,
    lookupVal, valEq, entriesSub, mapData, _handle_merge_get, _handle_merge,
    _handle_merge_replace, deepcopy, setVal]

/-- C8 amended: the conflict handler is dispatched for a shared key exactly
when the two values are unequal and NOT BOTH are Containers (it is also
dispatched when exactly one of them is a Container); when both values are
Containers the merge recurses into them instead (keeping the destination
mapping's identity and concrete type); a shared key whose values compare
`==`-equal is left untouched with no handler call. -/
theorem C8_amended_handler_dispatch :
    ∀ (hc : Callee) (dst src : Entries) (k : String) (c : Nat) (dv sv : Value),
      lookupVal k dst = some dv → lookupVal k src = some sv →
      (((mergeEntry hc dst src k c).2.head? = some (.handler k)) ↔
        ((mapData dv = none ∨ mapData sv = none) ∧ valEq dv sv = false)) ∧
      (∀ f i des sf si ses, mapData dv = some (f, i, des) → mapData sv = some (sf, si, ses) →
        (mergeEntry hc dst src k c).2 = .recurse k :: (_deepmerge hc des ses c).2 ∧
        (∀ des2 c2 t, _deepmerge hc des ses c = (.ok (des2, c2), t) →
          mergeEntry hc dst src k c = (.ok (setVal k (.vmap f i des2) dst, c2), .recurse k :: t))) ∧
      (valEq dv sv = true → validV dv = true → validV sv = true →
        ∃ t, mergeEntry hc dst src k c = (.ok (dst, c), t) ∧
          t.all eventNotHandler = true) := by
  intro hc dst src k c dv sv hdv hsv
  refine ⟨?_, ?_, ?_⟩
  · constructor
    · intro hhead
      cases hmd : mapData dv with
      | some p =>
          cases hms : mapData sv with
          | some q =>
              obtain ⟨f, i, des⟩ := p
              obtain ⟨sf, si, ses⟩ := q
              rw [mergeEntry_recurse_trace hsv hdv hmd hms] at hhead
              simp at hhead
          | none =>
              refine ⟨Or.inr rfl, ?_⟩
              cases heq : valEq dv sv with
              | true =>
                  rw [mergeEntry_pass hsv hdv (Or.inr hms) heq] at hhead
                  simp at hhead
              | false => rfl
      | none =>
          refine ⟨Or.inl rfl, ?_⟩
          cases heq : valEq dv sv with
          | true =>
              rw [mergeEntry_pass hsv hdv (Or.inl hmd) heq] at hhead
              simp at hhead
          | false => rfl
    · rintro ⟨hnm, heq⟩
      obtain ⟨rest, hrest⟩ := mergeEntry_conflict_trace hsv hdv hnm heq
      rw [hrest]
      rfl
  · intro f i des sf si ses hmd hms
    refine ⟨mergeEntry_recurse_trace hsv hdv hmd hms, ?_⟩
    intro des2 c2 t hrec
    rw [mergeEntry_recurse hsv hdv hmd hms, hrec]
  · intro heq hvd hvs
    obtain ⟨t, ht, hall⟩ := mergeEntry_equal_noop hdv hsv heq hvd hvs
    refine ⟨t, ht, ?_⟩
    rw [List.all_eq_true] at hall ⊢
    intro e he
    have := hall e he
    cases e with
    | handler k2 => simp [eventIsRecurse] at this
    | typeCheck k2 => rfl
    | recurse k2 => rfl

/-- C8 witness: the amended dispatch condition applied at a concrete shared
key with two unequal scalars (handler dispatched, head of the trace). -/
theorem C8_amended_handler_dispatch_witness :
    ((mergeEntry (.callable (_handle_merge .REPLACE)) [("k", Value.vint 1)]
        [("k", Value.vint 2)] "k" 0).2.head? = some (.handler "k")) ↔
      ((mapData (Value.vint 1) = none ∨ mapData (Value.vint 2) = none) ∧
        valEq (Value.vint 1) (Value.vint 2) = false) :=
  (C8_amended_handler_dispatch (.callable (_handle_merge .REPLACE))
    [("k", Value.vint 1)] [("k", Value.vint 2)] "k" 0 (Value.vint 1) (Value.vint 2)
    (by simp [lookupVal]) (by simp [lookupVal])).1

/-- C10: under the three TYPESAFE strategies, the concrete-type check runs
only when the conflict handler is dispatched, i.e. exactly for shared keys
with unequal, not-both-Mapping values: a shared key whose values compare
`==`-equal is a successful no-op that performs no type check and raises
nothing even when the concrete types differ; and a shared key where both
values are Mappings recurses without any type check at that level even when
the two Mappings' concrete types differ. -/
theorem C10_typecheck_only_after_dispatch :
    ∀ (s : Strategy), (s = .TYPESAFE ∨ s = .TYPESAFE_REPLACE ∨ s = .TYPESAFE_ADDITIVE) →
    ∀ (dst src : Entries) (k : String) (c : Nat) (dv sv : Value),
      lookupVal k dst = some dv → lookupVal k src = some sv →
      ((valEq dv sv = true → validV dv = true → validV sv = true →
        ∃ t, mergeEntry (.callable (_handle_merge s)) dst src k c = (.ok (dst, c), t) ∧
          t.all (fun e => eventIsRecurse e) = true)) ∧
      (∀ f i des sf si ses, mapData dv = some (f, i, des) → mapData sv = some (sf, si, ses) →
        (mergeEntry (.callable (_handle_merge s)) dst src k c).2 =
          .recurse k :: (_deepmerge (.callable (_handle_merge s)) des ses c).2) ∧
      (((mergeEntry (.callable (_handle_merge s)) dst src k c).2.take 2 =
          [.handler k, .typeCheck k]) ↔
        ((mapData dv = none ∨ mapData sv = none) ∧ valEq dv sv = false)) := by
  intro s hs dst src k c dv sv hdv hsv
  have hinner : ∃ inner, _handle_merge s = _handle_merge_typesafe inner := by
    rcases hs with rfl | rfl | rfl
    · exact ⟨_handle_merge_replace, rfl⟩
    · exact ⟨_handle_merge_replace, rfl⟩
    · exact ⟨_handle_merge_additive, rfl⟩
  obtain ⟨inner, hin⟩ := hinner
  refine ⟨?_, ?_, ?_⟩
  · intro heq hvd hvs
    exact mergeEntry_equal_noop hdv hsv heq hvd hvs
  · intro f i des sf si ses hmd hms
    exact mergeEntry_recurse_trace hsv hdv hmd hms
  · constructor
    · intro htake
      cases hmd : mapData dv with
      | some p =>
          cases hms : mapData sv with
          | some q =>
              obtain ⟨f, i, des⟩ := p
              obtain ⟨sf, si, ses⟩ := q
              rw [mergeEntry_recurse_trace hsv hdv hmd hms] at htake
              rw [List.take_succ_cons] at htake
              injection htake with e1
              cases e1
          | none =>
              refine ⟨Or.inr rfl, ?_⟩
              cases heq : valEq dv sv with
              | true =>
                  rw [mergeEntry_pass hsv hdv (Or.inr hms) heq] at htake
                  simp at htake
              | false => rfl
      | none =>
          refine ⟨Or.inl rfl, ?_⟩
          cases heq : valEq dv sv with
          | true =>
              rw [mergeEntry_pass hsv hdv (Or.inl hmd) heq] at htake
              simp at htake
          | false => rfl
    · rintro ⟨hnm, heq⟩
      rw [hin]
      rw [mergeEntry_conflict_callable hsv hdv hnm heq]
      by_cases hty : typeOf dv = typeOf sv
      · rw [handle_typesafe_match hdv hsv hty]
        simp
      · rw [handle_typesafe_mismatch hdv hsv hty]
        simp

/-- C10 witness: a shared key bound to `True` on one side and `1` on the
other — concrete types differ, the values compare equal, and the TYPESAFE
step succeeds untouched with no type check. -/
theorem C10_typecheck_only_after_dispatch_witness :
    typeOf (Value.vbool true) ≠ typeOf (Value.vint 1) ∧
    valEq (Value.vbool true) (Value.vint 1) = true ∧
    (∃ t, mergeEntry (.callable (_handle_merge .TYPESAFE)) [("k", Value.vbool true)]
        [("k", Value.vint 1)] "k" 0 =
      (.ok ([("k", Value.vbool true)], 0), t) ∧
      t.all (fun e => eventIsRecurse e) = true) :=
  ⟨by simp [typeOf], by simp [valEq],
    (C10_typecheck_only_after_dispatch .TYPESAFE (Or.inl rfl)
      [("k", Value.vbool true)] [("k", Value.vint 1)] "k" 0
      (Value.vbool true) (Value.vint 1)
      (by simp [lookupVal]) (by simp [lookupVal])).1
      (by simp [valEq]) rfl rfl⟩

end Mergedeep